import Mathlib

/-!
Shallow embedding of the market-sim repository core
(`src/environment/order_book.py`, `src/environment/environment.py`,
`src/environment/instrument.py`, and the message-handling slice of
`src/server/market_server.py`).

Modelling conventions:
* Python `float` prices and cash are modelled as `ℚ` (the code performs
  exact-looking arithmetic on them; no claim depends on IEEE rounding).
* Python `int` quantities are `Nat` (they are only ever decremented by
  `min` of two quantities, so they never go below zero in the source).
* `uuid` order ids and `time.time()` timestamps are modelled by one fresh
  strictly increasing `Nat` counter supplied by the caller: each created
  order receives a fresh value, which reproduces the distinctness and
  monotonicity the source relies on for price-time priority.
* `heapq` heaps are modelled as lists kept sorted by the element's own
  `sort_index` (Python's dataclass comparison is lexicographic on
  `sort_index` first, and `sort_index` values are distinct because
  timestamps are distinct): `heappop` is taking the head, `heappush` is
  ordered insertion.
* Python dicts are association lists with in-place update and
  insertion-order append.
* `raise` is modelled with `Except`; a raising call leaves the caller's
  state unchanged (in the source every raise happens before any mutation).
-/

namespace MarketSim

/-- Python dict lookup on an association list. -/
def alGet {α : Type} (l : List (String × α)) (k : String) : Option α :=
  match l with
  | [] => none
  | (k', v) :: rest => if k' = k then some v else alGet rest k

/-- Python dict assignment: replace in place if the key exists, else append. -/
def alSet {α : Type} (l : List (String × α)) (k : String) (v : α) : List (String × α) :=
  match l with
  | [] => [(k, v)]
  | (k', v') :: rest => if k' = k then (k', v) :: rest else (k', v') :: alSet rest k v

/-- `Order` dataclass from order_book.py. -/
structure Order where
  order_id : Nat
  agent_id : String
  side : String
  price : ℚ
  quantity : Nat
  order_type : String
  timestamp : Nat
  deriving DecidableEq, Repr

/-- The `sort_index` computed in `Order.__post_init__`:
buy orders rank by `(-price, timestamp)`, others by `(price, timestamp)`. -/
def sortKey (o : Order) : ℚ × Nat :=
  if o.side = "buy" then (-o.price, o.timestamp) else (o.price, o.timestamp)

/-- Lexicographic comparison on `sort_index`, the order `heapq` uses
(dataclass comparison starts with `sort_index`; timestamps are distinct). -/
def ole (a b : Order) : Prop :=
  (sortKey a).1 < (sortKey b).1 ∨
    ((sortKey a).1 = (sortKey b).1 ∧ (sortKey a).2 ≤ (sortKey b).2)

instance : DecidableRel ole := fun a b => by
  unfold ole; exact inferInstance

instance : IsTotal Order ole := by
  constructor
  intro a b
  unfold ole
  rcases lt_trichotomy (sortKey a).1 (sortKey b).1 with h | h | h
  · exact Or.inl (Or.inl h)
  · rcases le_total (sortKey a).2 (sortKey b).2 with h2 | h2
    · exact Or.inl (Or.inr ⟨h, h2⟩)
    · exact Or.inr (Or.inr ⟨h.symm, h2⟩)
  · exact Or.inr (Or.inl h)

instance : IsTrans Order ole := by
  constructor
  intro a b c hab hbc
  unfold ole at *
  rcases hab with h1 | ⟨h1, h1'⟩ <;> rcases hbc with h2 | ⟨h2, h2'⟩
  · exact Or.inl (h1.trans h2)
  · exact Or.inl (h2 ▸ h1)
  · exact Or.inl (h1 ▸ h2)
  · exact Or.inr ⟨h1.trans h2, h1'.trans h2'⟩

/-- `heapq.heappush` on the sorted-list model of a heap. -/
def heapPush (o : Order) (l : List Order) : List Order :=
  List.orderedInsert ole o l

/-- `Trade` dataclass from order_book.py. -/
structure Trade where
  price : ℚ
  volume : Nat
  symbol : String
  buyer : String
  seller : String
  buyer_order : Nat
  seller_order : Nat
  time : Option Nat
  deriving DecidableEq, Repr

/-- `OrderBook` state: symbol, the two heaps, the trade buffer, and
`current_tick` (never set by the environment, so it stays `none` there). -/
structure OrderBook where
  symbol : String
  bids : List Order
  asks : List Order
  trades : List Trade
  current_tick : Option Nat
  deriving DecidableEq, Repr

/-- `OrderBook.__init__` with an explicit symbol. -/
def emptyBook (sym : String) : OrderBook :=
  { symbol := sym, bids := [], asks := [], trades := [], current_tick := none }

/-- The `Trade(...)` constructed inside `OrderBook._match_against`:
price is the incoming order's price; buyer/seller assigned by the
incoming side. -/
def match_trade (sym : String) (tk : Option Nat) (inc best : Order) : Trade :=
  { price := inc.price
    volume := min inc.quantity best.quantity
    symbol := sym
    buyer := if inc.side = "buy" then inc.agent_id else best.agent_id
    seller := if inc.side = "buy" then best.agent_id else inc.agent_id
    buyer_order := if inc.side = "buy" then inc.order_id else best.order_id
    seller_order := if inc.side = "buy" then best.order_id else inc.order_id
    time := tk }

/-- The while-loop of `OrderBook._match_against`. State: the incoming
order (quantity mutated in place), the opposite heap, the `skipped`
list of same-participant orders set aside, and the trades produced. -/
def match_loop (sym : String) (tk : Option Nat) (inc : Order) (opp : List Order)
    (skipped : List Order) (trades : List Trade) :
    Order × List Order × List Order × List Trade :=
  if inc.quantity = 0 then (inc, opp, skipped, trades)
  else
    match opp with
    | [] => (inc, [], skipped, trades)
    | best :: rest =>
      if inc.agent_id ≠ "" ∧ best.agent_id ≠ "" ∧ best.agent_id = inc.agent_id then
        match_loop sym tk inc rest (skipped ++ [best]) trades
      else if (inc.side = "buy" ∧ inc.price < best.price) ∨
              (inc.side = "sell" ∧ best.price < inc.price) then
        (inc, best :: rest, skipped, trades)
      else
        let v := min inc.quantity best.quantity
        let t := match_trade sym tk inc best
        let inc' := { inc with quantity := inc.quantity - v }
        let best' := { best with quantity := best.quantity - v }
        if 0 < best'.quantity then
          match_loop sym tk inc' (heapPush best' rest) skipped (trades ++ [t])
        else
          match_loop sym tk inc' rest skipped (trades ++ [t])
  termination_by (inc.quantity, opp.length)
  decreasing_by
  · exact Prod.Lex.right _ (Nat.lt_succ_self _)
  · rename_i h
    have hb : 0 < best.quantity - min inc.quantity best.quantity := h
    apply Prod.Lex.left
    show inc.quantity - min inc.quantity best.quantity < inc.quantity
    omega
  · rcases Nat.eq_zero_or_pos (min inc.quantity best.quantity) with h0 | h0
    · have he : inc.quantity - min inc.quantity best.quantity = inc.quantity := by omega
      rw [he]
      exact Prod.Lex.right _ (Nat.lt_succ_self _)
    · apply Prod.Lex.left
      show inc.quantity - min inc.quantity best.quantity < inc.quantity
      omega

/-- `OrderBook._match_against`: run the loop, then push every skipped
order back onto the opposite heap, extend the book's trade buffer, and
return the produced trades (plus the mutated incoming order and book). -/
def match_against (bk : OrderBook) (incoming : Order) :
    Order × OrderBook × List Trade :=
  let opp := if incoming.side = "buy" then bk.asks else bk.bids
  let r := match_loop bk.symbol bk.current_tick incoming opp [] []
  let opp' := r.2.2.1.foldl (fun l o => heapPush o l) r.2.1
  let bk' := if incoming.side = "buy" then { bk with asks := opp' } else { bk with bids := opp' }
  (r.1, { bk' with trades := bk'.trades ++ r.2.2.2 }, r.2.2.2)

/-- `OrderBook._add_to_book`: push onto bids when side is buy, else asks. -/
def add_to_book (bk : OrderBook) (o : Order) : OrderBook :=
  if o.side = "buy" then { bk with bids := heapPush o bk.bids }
  else { bk with asks := heapPush o bk.asks }

/-- `OrderBook._place_limit_order`: match immediately, then rest any
remainder in the book. -/
def place_limit_order (bk : OrderBook) (o : Order) : OrderBook × List Trade :=
  let r := match_against bk o
  if 0 < r.1.quantity then (add_to_book r.2.1 r.1, r.2.2) else (r.2.1, r.2.2)

/-- The `Trade(...)` constructed inside `OrderBook._execute_market_order`:
here the price is the resting order's price. -/
def market_trade (sym : String) (tk : Option Nat) (ord best : Order) : Trade :=
  { price := best.price
    volume := min ord.quantity best.quantity
    symbol := sym
    buyer := if ord.side = "buy" then ord.agent_id else best.agent_id
    seller := if ord.side = "buy" then best.agent_id else ord.agent_id
    buyer_order := if ord.side = "buy" then ord.order_id else best.order_id
    seller_order := if ord.side = "buy" then best.order_id else ord.order_id
    time := tk }

/-- The while-loop of `OrderBook._execute_market_order`: consumes the
opposite heap with no price bound and no self-trade check; trade price
is the resting order's price. -/
def market_loop (sym : String) (tk : Option Nat) (ord : Order) (opp : List Order)
    (trades : List Trade) : Order × List Order × List Trade :=
  if ord.quantity = 0 then (ord, opp, trades)
  else
    match opp with
    | [] => (ord, [], trades)
    | best :: rest =>
      let v := min ord.quantity best.quantity
      let t := market_trade sym tk ord best
      let ord' := { ord with quantity := ord.quantity - v }
      let best' := { best with quantity := best.quantity - v }
      if 0 < best'.quantity then
        market_loop sym tk ord' (heapPush best' rest) (trades ++ [t])
      else
        market_loop sym tk ord' rest (trades ++ [t])
  termination_by (ord.quantity, opp.length)
  decreasing_by
  · rename_i h
    have hb : 0 < best.quantity - min ord.quantity best.quantity := h
    apply Prod.Lex.left
    show ord.quantity - min ord.quantity best.quantity < ord.quantity
    omega
  · rcases Nat.eq_zero_or_pos (min ord.quantity best.quantity) with h0 | h0
    · have he : ord.quantity - min ord.quantity best.quantity = ord.quantity := by omega
      rw [he]
      exact Prod.Lex.right _ (Nat.lt_succ_self _)
    · apply Prod.Lex.left
      show ord.quantity - min ord.quantity best.quantity < ord.quantity
      omega

/-- `OrderBook._execute_market_order` restricted to its state effect and
the trades it returns (the filled/unfilled/average-price statistics in
the returned dict are derived data not used by any modelled caller). -/
def execute_market_order (bk : OrderBook) (ord : Order) : OrderBook × List Trade :=
  let opp := if ord.side = "buy" then bk.asks else bk.bids
  let r := market_loop bk.symbol bk.current_tick ord opp []
  let bk' := if ord.side = "buy" then { bk with asks := r.2.1 } else { bk with bids := r.2.1 }
  ({ bk' with trades := bk'.trades ++ r.2.2 }, r.2.2)

/-- `OrderBook.place_order`: build the order (fresh id and timestamp are
the supplied counter `ts`), dispatch on the kind, raise `ValueError` on
anything else. -/
def place_order (bk : OrderBook) (price : ℚ) (volume : Nat) (side : String)
    (order_type : String) (agent_id : String) (ts : Nat) :
    Except String (OrderBook × List Trade) :=
  let o : Order :=
    { order_id := ts, agent_id := agent_id, side := side, price := price,
      quantity := volume, order_type := order_type, timestamp := ts }
  if order_type = "limit" then .ok (place_limit_order bk o)
  else if order_type = "market" then .ok (execute_market_order bk o)
  else .error ("Unknown order type: " ++ order_type)

/-- The caller-visible book state after `place_order`: on a raise the
book is exactly as before (the source raises before any mutation). -/
def place_order_book (bk : OrderBook) (price : ℚ) (volume : Nat) (side : String)
    (order_type : String) (agent_id : String) (ts : Nat) : OrderBook :=
  match place_order bk price volume side order_type agent_id ts with
  | .ok (bk', _) => bk'
  | .error _ => bk

/-- `OrderBook.best_bid`: Python `max(bids, key=price, default=None)`
as a left fold (strictly-greater replacement, first maximum wins). -/
def best_bid (bk : OrderBook) : Option Order :=
  bk.bids.foldl
    (fun acc o => match acc with
      | none => some o
      | some m => if o.price > m.price then some o else acc)
    none

/-- `OrderBook.best_ask`: Python `min(asks, key=price, default=None)`. -/
def best_ask (bk : OrderBook) : Option Order :=
  bk.asks.foldl
    (fun acc o => match acc with
      | none => some o
      | some m => if o.price < m.price then some o else acc)
    none

/-- One `place_order` request at the book level (used to quantify over
sequences of calls). -/
structure PlaceReq where
  price : ℚ
  volume : Nat
  side : String
  order_type : String
  agent_id : String
  deriving DecidableEq, Repr

/-- A sequence of `place_order` calls on a book; `ts` is the fresh
timestamp counter. On a raise the book is unchanged (caller view). -/
def run_orders (bk : OrderBook) (reqs : List PlaceReq) (ts : Nat) : OrderBook :=
  match reqs with
  | [] => bk
  | r :: rs =>
    run_orders (place_order_book bk r.price r.volume r.side r.order_type r.agent_id ts) rs (ts + 1)

/-- `Instrument` from instrument.py: symbol, last traded price, order book. -/
structure Instrument where
  symbol : String
  price : ℚ
  order_book : OrderBook
  deriving DecidableEq, Repr

/-- A fresh instrument (`Instrument.__init__`). -/
def mkInstrument (sym : String) (initial_price : ℚ) : Instrument :=
  { symbol := sym, price := initial_price, order_book := emptyBook sym }

/-- The order-request dict appended by `Environment.submit_order`; the
`order_type` and `agent_id` keys carry the defaulted values the source
reads via dict.get. -/
structure OrderReq where
  symbol : String
  price : ℚ
  volume : Nat
  side : String
  order_type : String
  agent_id : String
  deriving DecidableEq, Repr

/-- One agent account: cash plus the per-symbol signed holdings dict. -/
structure Account where
  cash : ℚ
  portfolio : List (String × Int)
  deriving DecidableEq, Repr

/-- `Environment` state. `next_ts` is the embedding's fresh
timestamp/order-id counter (see the header comment). -/
structure Environment where
  instruments : List (String × Instrument)
  time : Nat
  trade_log : List Trade
  pending_orders : List OrderReq
  agent_accounts : List (String × Account)
  next_ts : Nat
  deriving DecidableEq, Repr

/-- `Environment.__init__`. -/
def mkEnvironment (instruments : List (String × Instrument)) : Environment :=
  { instruments := instruments, time := 0, trade_log := [], pending_orders := [],
    agent_accounts := [], next_ts := 0 }

/-- `Environment.add_account`: a fresh account with 1,000,000.0 cash. -/
def add_account (env : Environment) (agent_id : String) : Environment :=
  { env with agent_accounts := alSet env.agent_accounts agent_id ⟨1000000, []⟩ }

/-- `Environment.submit_order`: append to the pending queue (the source
performs no validation of any kind here). -/
def submit_order (env : Environment) (order : OrderReq) : Environment :=
  { env with pending_orders := env.pending_orders ++ [order] }

/-- dict.get(symbol, 0) on a portfolio. -/
def portGet (p : List (String × Int)) (s : String) : Int :=
  (alGet p s).getD 0

/-- `Environment.update_accounts`: lazily create missing accounts, then
debit/credit buyer and seller in sequence. When buyer = seller the two
updates hit the same account one after the other, exactly as the two
Python mutations hit the same dict object. -/
def update_accounts (env : Environment) (t : Trade) : Environment :=
  let value : ℚ := t.price * (t.volume : ℚ)
  let env1 := if (alGet env.agent_accounts t.buyer).isNone then add_account env t.buyer else env
  let env2 := if (alGet env1.agent_accounts t.seller).isNone then add_account env1 t.seller else env1
  let buyer_acc := (alGet env2.agent_accounts t.buyer).getD { cash := 0, portfolio := [] }
  let buyer_acc' : Account :=
    { cash := buyer_acc.cash - value
      portfolio := alSet buyer_acc.portfolio t.symbol (portGet buyer_acc.portfolio t.symbol + (t.volume : Int)) }
  let env3 := { env2 with agent_accounts := alSet env2.agent_accounts t.buyer buyer_acc' }
  let seller_acc := (alGet env3.agent_accounts t.seller).getD { cash := 0, portfolio := [] }
  let seller_acc' : Account :=
    { cash := seller_acc.cash + value
      portfolio := alSet seller_acc.portfolio t.symbol (portGet seller_acc.portfolio t.symbol - (t.volume : Int)) }
  { env3 with agent_accounts := alSet env3.agent_accounts t.seller seller_acc' }

/-- The body of the loop over pending orders inside
`Environment.process_orders`: look the instrument up (a missing symbol
raises `KeyError`), place the order, stamp each returned trade with the
current tick number, settle it, and recurse on the remaining requests. -/
def process_go (env : Environment) (reqs : List OrderReq) (acc : List Trade) :
    Except String (Environment × List Trade) :=
  match reqs with
  | [] => .ok (env, acc)
  | r :: rs =>
    match alGet env.instruments r.symbol with
    | none => .error ("KeyError: " ++ r.symbol)
    | some inst =>
      match place_order inst.order_book r.price r.volume r.side r.order_type r.agent_id env.next_ts with
      | .error e => .error e
      | .ok (bk', trades) =>
        let inst' := { inst with order_book := bk' }
        let env1 := { env with
          instruments := alSet env.instruments r.symbol inst'
          next_ts := env.next_ts + 1 }
        let stamped := trades.map (fun t => { t with time := some env.time })
        let env2 := stamped.foldl update_accounts env1
        process_go env2 rs (acc ++ stamped)

/-- `Environment.process_orders`: run the loop over the pending queue,
then clear the queue and extend the trade log with all trades. -/
def process_orders (env : Environment) : Except String (Environment × List Trade) :=
  match process_go env env.pending_orders [] with
  | .error e => .error e
  | .ok (env', all_trades) =>
    .ok ({ env' with pending_orders := [], trade_log := env'.trade_log ++ all_trades }, all_trades)

/-- `Environment.update_prices`: set each instrument's price to the last
trade of the current tick for its symbol, if any. -/
def update_prices (env : Environment) : Environment :=
  { env with instruments := env.instruments.map (fun p =>
      let trs := env.trade_log.filter (fun t => t.symbol = p.1 ∧ t.time = some env.time)
      match trs.getLast? with
      | some t => (p.1, { p.2 with price := t.price })
      | none => (p.1, p.2)) }

/-- `Environment.tick`: advance the counter FIRST, then process pending
orders and update prices. Returns the mutated environment and the trades
(the returned dict's time/state fields are projections of the result). -/
def tick (env : Environment) : Except String (Environment × List Trade) :=
  let env1 := { env with time := env.time + 1 }
  match process_orders env1 with
  | .error e => .error e
  | .ok (env2, trades) => .ok (update_prices env2, trades)

/-- `Environment.reset`: clear the tick counter, the trade log and every
book's heaps and trade buffer; pending orders, accounts and instrument
prices are untouched. -/
def reset (env : Environment) : Environment :=
  { env with
    time := 0
    trade_log := []
    instruments := env.instruments.map (fun p =>
      (p.1, { p.2 with order_book :=
        { p.2.order_book with bids := [], asks := [], trades := [] } })) }

/-- The snapshot returned by `Environment.get_state`. -/
structure StateSnapshot where
  time : Nat
  instruments : List String
  order_books : List (String × Nat × Nat)
  prices : List (String × ℚ)
  account : Option Account
  deriving DecidableEq, Repr

/-- `Environment.get_state`: with a truthy `addr` the snapshot includes
`agent_accounts[addr]`, which raises `KeyError` for an unseen id; a
`None` or empty `addr` takes the account-free branch. -/
def get_state (env : Environment) (addr : Option String) : Except String StateSnapshot :=
  let base : StateSnapshot :=
    { time := env.time
      instruments := env.instruments.map Prod.fst
      order_books := env.instruments.map (fun p =>
        (p.1, p.2.order_book.bids.length, p.2.order_book.asks.length))
      prices := env.instruments.map (fun p => (p.1, p.2.price))
      account := none }
  match addr with
  | none => .ok base
  | some a =>
    if a = "" then .ok base
    else
      match alGet env.agent_accounts a with
      | none => .error ("KeyError: " ++ a)
      | some acc => .ok { base with account := some acc }

/-- The PLACE_ORDER branch of `MarketServer.process_message`: the order
is queued unconditionally and the reply is an ACK with status queued. -/
def process_place_order (env : Environment) (msg : OrderReq) : Environment × String :=
  (submit_order env msg, "queued")

/-- Two orders agree on every field except (possibly) the remaining
quantity: matching mutates only `quantity`. -/
def same_core (a b : Order) : Prop :=
  a.order_id = b.order_id ∧ a.agent_id = b.agent_id ∧ a.side = b.side ∧
    a.price = b.price ∧ a.order_type = b.order_type ∧ a.timestamp = b.timestamp

/-- The opposite heap an incoming order of this side matches against. -/
def opp_side (bk : OrderBook) (side : String) : List Order :=
  if side = "buy" then bk.asks else bk.bids

/-- Book well-formedness maintained by `place_order`: both heaps sorted
by the `sort_index` order, bids all created with side buy, asks all
created with a non-buy side (so each element's `sort_index` uses the
price key of its heap). -/
def BookWF (bk : OrderBook) : Prop :=
  List.Sorted ole bk.bids ∧ List.Sorted ole bk.asks ∧
    (∀ o ∈ bk.bids, o.side = "buy") ∧ (∀ o ∈ bk.asks, o.side ≠ "buy")

/-- Every crossing resting pair (a bid priced at or above an ask)
belongs to one participant with a nonempty id. The books reachable by
`place_order` all satisfy this: crossing survives only via the
self-trade skip. -/
def NoCross (bk : OrderBook) : Prop :=
  ∀ b ∈ bk.bids, ∀ a ∈ bk.asks, a.price ≤ b.price →
    b.agent_id = a.agent_id ∧ b.agent_id ≠ ""

/-- The cross test the matching loop stops on, seen from the incoming
order against a resting order. -/
def break_cond (inc o : Order) : Prop :=
  (inc.side = "buy" ∧ inc.price < o.price) ∨ (inc.side = "sell" ∧ o.price < inc.price)

/-- All orders on the opposite heap were created on the side opposite
to the incoming order (bids are buys, asks are non-buys). -/
def opp_consistent (inc : Order) (opp : List Order) : Prop :=
  if inc.side = "buy" then ∀ o ∈ opp, o.side ≠ "buy" else ∀ o ∈ opp, o.side = "buy"

/-- Concrete scenario: the same participant rests a sell at 100 and
then submits a buy at 105; the self-trade skip leaves both resting. -/
def selfCrossBook : OrderBook :=
  run_orders (emptyBook "S")
    [⟨100, 5, "sell", "limit", "A"⟩, ⟨105, 5, "buy", "limit", "A"⟩] 0

/-- Concrete scenario: participant A rests a limit sell at 100. -/
def restSellBook : OrderBook :=
  run_orders (emptyBook "S") [⟨100, 5, "sell", "limit", "A"⟩] 0

/-- Concrete environment with the single instrument X at price 100. -/
def envX : Environment := mkEnvironment [("X", mkInstrument "X" 100)]

/-- The §8 end-to-end example: submit (buy, 101, 5, A) then
(sell, 100, 5, B) on instrument X. -/
def envX2 : Environment :=
  submit_order (submit_order envX ⟨"X", 101, 5, "buy", "limit", "A"⟩)
    ⟨"X", 100, 5, "sell", "limit", "B"⟩

/-- An order request naming the unknown instrument symbol Y. -/
def reqY : OrderReq := ⟨"Y", 50, 1, "buy", "limit", "C"⟩

/-- A trade whose buyer and seller are the same participant (produced,
for example, by a market order matching the same agent's resting order). -/
def selfTrade : Trade := ⟨100, 5, "X", "A", "A", 0, 1, some 1⟩

/-- A well-formed book with one resting sell: B offers 7 at 100. -/
def bkW : OrderBook := ⟨"S", [], [⟨0, "B", "sell", 100, 7, "limit", 0⟩], [], none⟩

/-- A trade between distinct participants (A buys 5 from B at 100). -/
def tradeAB : Trade := ⟨100, 5, "X", "A", "B", 0, 1, some 1⟩

theorem mem_heapPush {a o : Order} {l : List Order} :
    a ∈ heapPush o l ↔ a = o ∨ a ∈ l := by
  simp [heapPush, List.mem_orderedInsert]

theorem sorted_heapPush {o : Order} {l : List Order} (h : List.Sorted ole l) :
    List.Sorted ole (heapPush o l) :=
  h.orderedInsert o l

theorem mem_foldl_heapPush {a : Order} :
    ∀ (sk l : List Order),
      (a ∈ sk.foldl (fun acc o => heapPush o acc) l ↔ a ∈ sk ∨ a ∈ l) := by
  intro sk
  induction sk with
  | nil => simp
  | cons x xs ih =>
    intro l
    rw [List.foldl_cons, ih, mem_heapPush]
    simp only [List.mem_cons]
    tauto

theorem sorted_foldl_heapPush :
    ∀ (sk l : List Order), List.Sorted ole l →
      List.Sorted ole (sk.foldl (fun acc o => heapPush o acc) l) := by
  intro sk
  induction sk with
  | nil => intro l h; simpa using h
  | cons x xs ih =>
    intro l h
    rw [List.foldl_cons]
    exact ih _ (sorted_heapPush h)

theorem same_core_refl (a : Order) : same_core a a := by
  simp [same_core]

theorem match_loop_zero {sym tk inc opp sk trs} (h : inc.quantity = 0) :
    match_loop sym tk inc opp sk trs = (inc, opp, sk, trs) := by
  rw [match_loop.eq_def]
  simp [h]

theorem match_loop_nil {sym tk inc sk trs} (h : inc.quantity ≠ 0) :
    match_loop sym tk inc [] sk trs = (inc, [], sk, trs) := by
  rw [match_loop.eq_def]
  simp [h]

theorem match_loop_skip {sym tk inc best rest sk trs} (h : inc.quantity ≠ 0)
    (hskip : inc.agent_id ≠ "" ∧ best.agent_id ≠ "" ∧ best.agent_id = inc.agent_id) :
    match_loop sym tk inc (best :: rest) sk trs =
      match_loop sym tk inc rest (sk ++ [best]) trs := by
  rw [match_loop.eq_def]
  simp [h, hskip]

theorem match_loop_break {sym tk inc best rest sk trs} (h : inc.quantity ≠ 0)
    (hskip : ¬(inc.agent_id ≠ "" ∧ best.agent_id ≠ "" ∧ best.agent_id = inc.agent_id))
    (hbreak : break_cond inc best) :
    match_loop sym tk inc (best :: rest) sk trs = (inc, best :: rest, sk, trs) := by
  rw [match_loop.eq_def]
  rw [break_cond] at hbreak
  simp [h, hskip, hbreak]

theorem match_loop_step {sym tk inc best rest sk trs} (h : inc.quantity ≠ 0)
    (hskip : ¬(inc.agent_id ≠ "" ∧ best.agent_id ≠ "" ∧ best.agent_id = inc.agent_id))
    (hbreak : ¬ break_cond inc best) :
    match_loop sym tk inc (best :: rest) sk trs =
      match_loop sym tk { inc with quantity := inc.quantity - min inc.quantity best.quantity }
        (if 0 < best.quantity - min inc.quantity best.quantity then
          heapPush { best with quantity := best.quantity - min inc.quantity best.quantity } rest
         else rest)
        sk (trs ++ [match_trade sym tk inc best]) := by
  rw [match_loop.eq_def]
  rw [break_cond] at hbreak
  simp only [h, if_neg, hskip, if_false, hbreak]
  split
  · rfl
  · rfl

theorem same_core_trans {a b c : Order} (h1 : same_core a b) (h2 : same_core b c) :
    same_core a c := by
  unfold same_core at *
  obtain ⟨e1, e2, e3, e4, e5, e6⟩ := h1
  obtain ⟨f1, f2, f3, f4, f5, f6⟩ := h2
  exact ⟨e1.trans f1, e2.trans f2, e3.trans f3, e4.trans f4, e5.trans f5, e6.trans f6⟩

theorem same_core_quantity (a : Order) (q : Nat) :
    same_core { a with quantity := q } a := by
  simp [same_core]

/-- The loop mutates only the incoming order's quantity. -/
theorem match_loop_inc_core (sym : String) (tk : Option Nat) :
    ∀ inc opp sk trs, same_core (match_loop sym tk inc opp sk trs).1 inc := by
  intro inc opp sk trs
  induction inc, opp, sk, trs using match_loop.induct sym tk with
  | case1 inc opp sk trs h =>
    rw [match_loop_zero h]
    exact same_core_refl inc
  | case2 inc sk trs h =>
    rw [match_loop_nil h]
    exact same_core_refl inc
  | case3 inc sk trs h best rest hskip ih =>
    rw [match_loop_skip h hskip]
    exact ih
  | case4 inc sk trs h best rest hskip hbreak =>
    rw [match_loop_break h hskip hbreak]
    exact same_core_refl inc
  | case5 inc sk trs h best rest hskip hbreak v t inc' best' hpos ih =>
    rw [match_loop_step h hskip hbreak]
    have hp : 0 < best.quantity - min inc.quantity best.quantity := hpos
    rw [if_pos hp]
    exact same_core_trans ih (same_core_quantity inc _)
  | case6 inc sk trs h best rest hskip hbreak v t inc' best' hpos ih =>
    rw [match_loop_step h hskip hbreak]
    have hp : ¬ 0 < best.quantity - min inc.quantity best.quantity := hpos
    rw [if_neg hp]
    exact same_core_trans ih (same_core_quantity inc _)

/-- Every order left on the opposite heap descends from an order that
was already there (same identity, possibly smaller quantity). -/
theorem match_loop_opp_prov (sym : String) (tk : Option Nat) :
    ∀ inc opp sk trs, ∀ o ∈ (match_loop sym tk inc opp sk trs).2.1,
      ∃ o₀ ∈ opp, same_core o o₀ := by
  intro inc opp sk trs
  induction inc, opp, sk, trs using match_loop.induct sym tk with
  | case1 inc opp sk trs h =>
    rw [match_loop_zero h]
    intro o ho
    exact ⟨o, ho, same_core_refl o⟩
  | case2 inc sk trs h =>
    rw [match_loop_nil h]
    intro o ho
    simp at ho
  | case3 inc sk trs h best rest hskip ih =>
    rw [match_loop_skip h hskip]
    intro o ho
    obtain ⟨o₀, h0, hc⟩ := ih o ho
    exact ⟨o₀, List.mem_cons_of_mem best h0, hc⟩
  | case4 inc sk trs h best rest hskip hbreak =>
    rw [match_loop_break h hskip hbreak]
    intro o ho
    exact ⟨o, ho, same_core_refl o⟩
  | case5 inc sk trs h best rest hskip hbreak v t inc' best' hpos ih =>
    rw [match_loop_step h hskip hbreak]
    have hp : 0 < best.quantity - min inc.quantity best.quantity := hpos
    rw [if_pos hp]
    intro o ho
    obtain ⟨o₀, h0, hc⟩ := ih o ho
    rcases mem_heapPush.mp h0 with h0' | h0'
    · subst h0'
      exact ⟨best, List.mem_cons_self best rest,
        same_core_trans hc (same_core_quantity best _)⟩
    · exact ⟨o₀, List.mem_cons_of_mem best h0', hc⟩
  | case6 inc sk trs h best rest hskip hbreak v t inc' best' hpos ih =>
    rw [match_loop_step h hskip hbreak]
    have hp : ¬ 0 < best.quantity - min inc.quantity best.quantity := hpos
    rw [if_neg hp]
    intro o ho
    obtain ⟨o₀, h0, hc⟩ := ih o ho
    exact ⟨o₀, List.mem_cons_of_mem best h0, hc⟩

/-- The loop keeps the opposite heap sorted. -/
theorem match_loop_opp_sorted (sym : String) (tk : Option Nat) :
    ∀ inc opp sk trs, List.Sorted ole opp →
      List.Sorted ole (match_loop sym tk inc opp sk trs).2.1 := by
  intro inc opp sk trs
  induction inc, opp, sk, trs using match_loop.induct sym tk with
  | case1 inc opp sk trs h =>
    rw [match_loop_zero h]
    exact id
  | case2 inc sk trs h =>
    rw [match_loop_nil h]
    intro
    exact List.sorted_nil
  | case3 inc sk trs h best rest hskip ih =>
    rw [match_loop_skip h hskip]
    intro hs
    exact ih hs.of_cons
  | case4 inc sk trs h best rest hskip hbreak =>
    rw [match_loop_break h hskip hbreak]
    exact id
  | case5 inc sk trs h best rest hskip hbreak v t inc' best' hpos ih =>
    rw [match_loop_step h hskip hbreak]
    have hp : 0 < best.quantity - min inc.quantity best.quantity := hpos
    rw [if_pos hp]
    intro hs
    exact ih (sorted_heapPush hs.of_cons)
  | case6 inc sk trs h best rest hskip hbreak v t inc' best' hpos ih =>
    rw [match_loop_step h hskip hbreak]
    have hp : ¬ 0 < best.quantity - min inc.quantity best.quantity := hpos
    rw [if_neg hp]
    intro hs
    exact ih hs.of_cons

/-- Orders set aside by the self-trade check come from the opposite heap
unchanged and carry the incoming participant's (nonempty) id. -/
theorem match_loop_skipped (sym : String) (tk : Option Nat) :
    ∀ inc opp sk trs, ∀ o ∈ (match_loop sym tk inc opp sk trs).2.2.1,
      o ∈ sk ∨ (o ∈ opp ∧ o.agent_id = inc.agent_id ∧ o.agent_id ≠ "") := by
  intro inc opp sk trs
  induction inc, opp, sk, trs using match_loop.induct sym tk with
  | case1 inc opp sk trs h =>
    rw [match_loop_zero h]
    intro o ho
    exact Or.inl ho
  | case2 inc sk trs h =>
    rw [match_loop_nil h]
    intro o ho
    exact Or.inl ho
  | case3 inc sk trs h best rest hskip ih =>
    rw [match_loop_skip h hskip]
    intro o ho
    rcases ih o ho with hin | ⟨hin, ha, hne⟩
    · rcases List.mem_append.mp hin with hin' | hin'
      · exact Or.inl hin'
      · have : o = best := by simpa using hin'
        subst this
        exact Or.inr ⟨List.mem_cons_self o rest, hskip.2.2, hskip.2.1⟩
    · exact Or.inr ⟨List.mem_cons_of_mem best hin, ha, hne⟩
  | case4 inc sk trs h best rest hskip hbreak =>
    rw [match_loop_break h hskip hbreak]
    intro o ho
    exact Or.inl ho
  | case5 inc sk trs h best rest hskip hbreak v t inc' best' hpos ih =>
    rw [match_loop_step h hskip hbreak]
    have hp : 0 < best.quantity - min inc.quantity best.quantity := hpos
    rw [if_pos hp]
    intro o ho
    rcases ih o ho with hin | ⟨hin, ha, hne⟩
    · exact Or.inl hin
    · rcases mem_heapPush.mp hin with he | hin'
      · exfalso
        have hb : best.agent_id = inc.agent_id := by
          rw [he] at ha
          exact ha
        have hbne : best.agent_id ≠ "" := by
          rw [he] at hne
          exact hne
        exact hskip ⟨hb ▸ hbne, hbne, hb⟩
      · exact Or.inr ⟨List.mem_cons_of_mem best hin', ha, hne⟩
  | case6 inc sk trs h best rest hskip hbreak v t inc' best' hpos ih =>
    rw [match_loop_step h hskip hbreak]
    have hp : ¬ 0 < best.quantity - min inc.quantity best.quantity := hpos
    rw [if_neg hp]
    intro o ho
    rcases ih o ho with hin | ⟨hin, ha, hne⟩
    · exact Or.inl hin
    · exact Or.inr ⟨List.mem_cons_of_mem best hin, ha, hne⟩

/-- The set-aside list only grows during the loop. -/
theorem match_loop_sk_mono (sym : String) (tk : Option Nat) :
    ∀ inc opp sk trs, ∀ o ∈ sk, o ∈ (match_loop sym tk inc opp sk trs).2.2.1 := by
  intro inc opp sk trs
  induction inc, opp, sk, trs using match_loop.induct sym tk with
  | case1 inc opp sk trs h =>
    rw [match_loop_zero h]
    exact fun o ho => ho
  | case2 inc sk trs h =>
    rw [match_loop_nil h]
    exact fun o ho => ho
  | case3 inc sk trs h best rest hskip ih =>
    rw [match_loop_skip h hskip]
    exact fun o ho => ih o (List.mem_append_left _ ho)
  | case4 inc sk trs h best rest hskip hbreak =>
    rw [match_loop_break h hskip hbreak]
    exact fun o ho => ho
  | case5 inc sk trs h best rest hskip hbreak v t inc' best' hpos ih =>
    rw [match_loop_step h hskip hbreak]
    have hp : 0 < best.quantity - min inc.quantity best.quantity := hpos
    rw [if_pos hp]
    exact ih
  | case6 inc sk trs h best rest hskip hbreak v t inc' best' hpos ih =>
    rw [match_loop_step h hskip hbreak]
    have hp : ¬ 0 < best.quantity - min inc.quantity best.quantity := hpos
    rw [if_neg hp]
    exact ih

/-- With a nonempty incoming participant id, every resting order of that
same participant survives the call untouched: it ends up either still on
the heap or on the set-aside list (which is pushed back afterwards). -/
theorem match_loop_same_agent_kept (sym : String) (tk : Option Nat) :
    ∀ inc opp sk trs, inc.agent_id ≠ "" →
      ∀ o ∈ opp, o.agent_id = inc.agent_id →
        o ∈ (match_loop sym tk inc opp sk trs).2.1 ∨
          o ∈ (match_loop sym tk inc opp sk trs).2.2.1 := by
  intro inc opp sk trs
  induction inc, opp, sk, trs using match_loop.induct sym tk with
  | case1 inc opp sk trs h =>
    rw [match_loop_zero h]
    exact fun _ o ho _ => Or.inl ho
  | case2 inc sk trs h =>
    rw [match_loop_nil h]
    intro _ o ho
    simp at ho
  | case3 inc sk trs h best rest hskip ih =>
    rw [match_loop_skip h hskip]
    intro hne o ho ha
    rcases List.mem_cons.mp ho with he | ho'
    · subst he
      exact Or.inr (match_loop_sk_mono sym tk inc rest (sk ++ [o]) trs o
        (List.mem_append_right _ (List.mem_singleton_self o)))
    · exact ih hne o ho' ha
  | case4 inc sk trs h best rest hskip hbreak =>
    rw [match_loop_break h hskip hbreak]
    exact fun _ o ho _ => Or.inl ho
  | case5 inc sk trs h best rest hskip hbreak v t inc' best' hpos ih =>
    rw [match_loop_step h hskip hbreak]
    have hp : 0 < best.quantity - min inc.quantity best.quantity := hpos
    rw [if_pos hp]
    intro hne o ho ha
    rcases List.mem_cons.mp ho with he | ho'
    · exfalso
      subst he
      exact hskip ⟨hne, ha ▸ hne, ha⟩
    · exact ih hne o (mem_heapPush.mpr (Or.inr ho')) ha
  | case6 inc sk trs h best rest hskip hbreak v t inc' best' hpos ih =>
    rw [match_loop_step h hskip hbreak]
    have hp : ¬ 0 < best.quantity - min inc.quantity best.quantity := hpos
    rw [if_neg hp]
    intro hne o ho ha
    rcases List.mem_cons.mp ho with he | ho'
    · exfalso
      subst he
      exact hskip ⟨hne, ha ▸ hne, ha⟩
    · exact ih hne o ho' ha

/-- Every trade the loop adds is priced at the incoming order's price,
and (for a nonempty incoming id) is between distinct participants. -/
theorem match_loop_trades (sym : String) (tk : Option Nat) :
    ∀ inc opp sk trs, ∀ t ∈ (match_loop sym tk inc opp sk trs).2.2.2,
      t ∈ trs ∨
        (t.price = inc.price ∧ (inc.agent_id ≠ "" → t.buyer ≠ t.seller)) := by
  intro inc opp sk trs
  induction inc, opp, sk, trs using match_loop.induct sym tk with
  | case1 inc opp sk trs h =>
    rw [match_loop_zero h]
    exact fun t ht => Or.inl ht
  | case2 inc sk trs h =>
    rw [match_loop_nil h]
    exact fun t ht => Or.inl ht
  | case3 inc sk trs h best rest hskip ih =>
    rw [match_loop_skip h hskip]
    exact ih
  | case4 inc sk trs h best rest hskip hbreak =>
    rw [match_loop_break h hskip hbreak]
    exact fun t ht => Or.inl ht
  | case5 inc sk trs h best rest hskip hbreak v t inc' best' hpos ih =>
    rw [match_loop_step h hskip hbreak]
    have hp : 0 < best.quantity - min inc.quantity best.quantity := hpos
    rw [if_pos hp]
    intro t' ht'
    rcases ih t' ht' with hin | hgood
    · rcases List.mem_append.mp hin with hin' | hin'
      · exact Or.inl hin'
      · have he : t' = match_trade sym tk inc best := by simpa using hin'
        subst he
        refine Or.inr ⟨rfl, fun hne => ?_⟩
        have hdiff : best.agent_id ≠ inc.agent_id := by
          intro heq
          exact hskip ⟨hne, heq ▸ hne, heq⟩
        show (if inc.side = "buy" then inc.agent_id else best.agent_id) ≠
          (if inc.side = "buy" then best.agent_id else inc.agent_id)
        by_cases hside : inc.side = "buy"
        · rw [if_pos hside, if_pos hside]
          exact fun heq => hdiff heq.symm
        · rw [if_neg hside, if_neg hside]
          exact hdiff
    · exact Or.inr hgood
  | case6 inc sk trs h best rest hskip hbreak v t inc' best' hpos ih =>
    rw [match_loop_step h hskip hbreak]
    have hp : ¬ 0 < best.quantity - min inc.quantity best.quantity := hpos
    rw [if_neg hp]
    intro t' ht'
    rcases ih t' ht' with hin | hgood
    · rcases List.mem_append.mp hin with hin' | hin'
      · exact Or.inl hin'
      · have he : t' = match_trade sym tk inc best := by simpa using hin'
        subst he
        refine Or.inr ⟨rfl, fun hne => ?_⟩
        have hdiff : best.agent_id ≠ inc.agent_id := by
          intro heq
          exact hskip ⟨hne, heq ▸ hne, heq⟩
        show (if inc.side = "buy" then inc.agent_id else best.agent_id) ≠
          (if inc.side = "buy" then best.agent_id else inc.agent_id)
        by_cases hside : inc.side = "buy"
        · rw [if_pos hside, if_pos hside]
          exact fun heq => hdiff heq.symm
        · rw [if_neg hside, if_neg hside]
          exact hdiff
    · exact Or.inr hgood

/-- The loop only appends to the trade accumulator. -/
theorem match_loop_trades_ext (sym : String) (tk : Option Nat) :
    ∀ inc opp sk trs, ∃ new, (match_loop sym tk inc opp sk trs).2.2.2 = trs ++ new := by
  intro inc opp sk trs
  induction inc, opp, sk, trs using match_loop.induct sym tk with
  | case1 inc opp sk trs h =>
    rw [match_loop_zero h]
    exact ⟨[], by simp⟩
  | case2 inc sk trs h =>
    rw [match_loop_nil h]
    exact ⟨[], by simp⟩
  | case3 inc sk trs h best rest hskip ih =>
    rw [match_loop_skip h hskip]
    exact ih
  | case4 inc sk trs h best rest hskip hbreak =>
    rw [match_loop_break h hskip hbreak]
    exact ⟨[], by simp⟩
  | case5 inc sk trs h best rest hskip hbreak v t inc' best' hpos ih =>
    rw [match_loop_step h hskip hbreak]
    have hp : 0 < best.quantity - min inc.quantity best.quantity := hpos
    rw [if_pos hp]
    obtain ⟨new, hnew⟩ := ih
    exact ⟨match_trade sym tk inc best :: new, by simpa using hnew⟩
  | case6 inc sk trs h best rest hskip hbreak v t inc' best' hpos ih =>
    rw [match_loop_step h hskip hbreak]
    have hp : ¬ 0 < best.quantity - min inc.quantity best.quantity := hpos
    rw [if_neg hp]
    obtain ⟨new, hnew⟩ := ih
    exact ⟨match_trade sym tk inc best :: new, by simpa using hnew⟩

theorem ole_price_le {a b : Order} (ha : a.side ≠ "buy") (hb : b.side ≠ "buy")
    (h : ole a b) : a.price ≤ b.price := by
  unfold ole sortKey at h
  rw [if_neg ha, if_neg hb] at h
  rcases h with h | ⟨h, _⟩
  · exact le_of_lt h
  · exact le_of_eq h

theorem ole_price_ge {a b : Order} (ha : a.side = "buy") (hb : b.side = "buy")
    (h : ole a b) : b.price ≤ a.price := by
  unfold ole sortKey at h
  rw [if_pos ha, if_pos hb] at h
  rcases h with h | ⟨h, _⟩
  · exact le_of_lt (neg_lt_neg_iff.mp h)
  · exact le_of_eq (neg_inj.mp h).symm

theorem opp_consistent_tail {inc best : Order} {rest : List Order}
    (h : opp_consistent inc (best :: rest)) : opp_consistent inc rest := by
  unfold opp_consistent at *
  split at h
  · rw [if_pos (by assumption)]
    exact fun o ho => h o (List.mem_cons_of_mem best ho)
  · rw [if_neg (by assumption)]
    exact fun o ho => h o (List.mem_cons_of_mem best ho)

/-- If the loop stops with remaining incoming quantity, every order left
on the opposite heap fails the cross test against the incoming order. -/
theorem match_loop_break_char (sym : String) (tk : Option Nat) :
    ∀ inc opp sk trs, List.Sorted ole opp → opp_consistent inc opp →
      (match_loop sym tk inc opp sk trs).1.quantity ≠ 0 →
      ∀ o ∈ (match_loop sym tk inc opp sk trs).2.1, break_cond inc o := by
  intro inc opp sk trs
  induction inc, opp, sk, trs using match_loop.induct sym tk with
  | case1 inc opp sk trs h =>
    rw [match_loop_zero h]
    intro _ _ hq
    exact absurd h hq
  | case2 inc sk trs h =>
    rw [match_loop_nil h]
    intro _ _ _ o ho
    simp at ho
  | case3 inc sk trs h best rest hskip ih =>
    rw [match_loop_skip h hskip]
    intro hs hc hq o ho
    exact ih hs.of_cons (opp_consistent_tail hc) hq o ho
  | case4 inc sk trs h best rest hskip hbreak =>
    rw [match_loop_break h hskip hbreak]
    intro hs hc _ o ho
    rcases List.mem_cons.mp ho with he | ho'
    · subst he
      rw [break_cond]
      exact hbreak
    · have hrel : ole best o := (List.pairwise_cons.mp hs).1 o ho'
      rcases hbreak with ⟨hside, hlt⟩ | ⟨hside, hlt⟩
      · unfold opp_consistent at hc
        rw [if_pos hside] at hc
        have h1 : best.side ≠ "buy" := hc best (List.mem_cons_self best rest)
        have h2 : o.side ≠ "buy" := hc o (List.mem_cons_of_mem best ho')
        exact Or.inl ⟨hside, hlt.trans_le (ole_price_le h1 h2 hrel)⟩
      · unfold opp_consistent at hc
        rw [if_neg (by rw [hside]; decide)] at hc
        have h1 : best.side = "buy" := hc best (List.mem_cons_self best rest)
        have h2 : o.side = "buy" := hc o (List.mem_cons_of_mem best ho')
        exact Or.inr ⟨hside, (ole_price_ge h1 h2 hrel).trans_lt hlt⟩
  | case5 inc sk trs h best rest hskip hbreak v t inc' best' hpos ih =>
    rw [match_loop_step h hskip hbreak]
    have hp : 0 < best.quantity - min inc.quantity best.quantity := hpos
    rw [if_pos hp]
    intro hs hc hq o ho
    have hc' : opp_consistent inc (heapPush { best with quantity := best.quantity - min inc.quantity best.quantity } rest) := by
      unfold opp_consistent at *
      split at hc
      · rw [if_pos (by assumption)]
        intro o' ho'
        rcases mem_heapPush.mp ho' with he | ho''
        · rw [he]
          exact hc best (List.mem_cons_self best rest)
        · exact hc o' (List.mem_cons_of_mem best ho'')
      · rw [if_neg (by assumption)]
        intro o' ho'
        rcases mem_heapPush.mp ho' with he | ho''
        · rw [he]
          exact hc best (List.mem_cons_self best rest)
        · exact hc o' (List.mem_cons_of_mem best ho'')
    exact ih (sorted_heapPush hs.of_cons) hc' hq o ho
  | case6 inc sk trs h best rest hskip hbreak v t inc' best' hpos ih =>
    rw [match_loop_step h hskip hbreak]
    have hp : ¬ 0 < best.quantity - min inc.quantity best.quantity := hpos
    rw [if_neg hp]
    intro hs hc hq o ho
    exact ih hs.of_cons (opp_consistent_tail hc) hq o ho

/-- Unfolding: market loop with exhausted order. -/
theorem market_loop_zero {sym tk ord opp trs} (h : ord.quantity = 0) :
    market_loop sym tk ord opp trs = (ord, opp, trs) := by
  rw [market_loop.eq_def]
  simp [h]

theorem market_loop_nil {sym tk ord trs} (h : ord.quantity ≠ 0) :
    market_loop sym tk ord [] trs = (ord, [], trs) := by
  rw [market_loop.eq_def]
  simp [h]

theorem market_loop_step {sym tk ord best rest trs} (h : ord.quantity ≠ 0) :
    market_loop sym tk ord (best :: rest) trs =
      market_loop sym tk { ord with quantity := ord.quantity - min ord.quantity best.quantity }
        (if 0 < best.quantity - min ord.quantity best.quantity then
          heapPush { best with quantity := best.quantity - min ord.quantity best.quantity } rest
         else rest)
        (trs ++ [market_trade sym tk ord best]) := by
  rw [market_loop.eq_def]
  simp only [h, if_neg, if_false]
  split
  · rfl
  · rfl

/-- Market execution also only removes from or decrements the opposite heap. -/
theorem market_loop_opp_prov (sym : String) (tk : Option Nat) :
    ∀ ord opp trs, ∀ o ∈ (market_loop sym tk ord opp trs).2.1,
      ∃ o₀ ∈ opp, same_core o o₀ := by
  intro ord opp trs
  induction ord, opp, trs using market_loop.induct sym tk with
  | case1 ord opp trs h =>
    rw [market_loop_zero h]
    exact fun o ho => ⟨o, ho, same_core_refl o⟩
  | case2 ord trs h =>
    rw [market_loop_nil h]
    intro o ho
    simp at ho
  | case3 ord trs h best rest v t ord' best' hpos ih =>
    rw [market_loop_step h]
    have hp : 0 < best.quantity - min ord.quantity best.quantity := hpos
    rw [if_pos hp]
    intro o ho
    obtain ⟨o₀, h0, hc⟩ := ih o ho
    rcases mem_heapPush.mp h0 with he | h0'
    · subst he
      exact ⟨best, List.mem_cons_self best rest,
        same_core_trans hc (same_core_quantity best _)⟩
    · exact ⟨o₀, List.mem_cons_of_mem best h0', hc⟩
  | case4 ord trs h best rest v t ord' best' hpos ih =>
    rw [market_loop_step h]
    have hp : ¬ 0 < best.quantity - min ord.quantity best.quantity := hpos
    rw [if_neg hp]
    intro o ho
    obtain ⟨o₀, h0, hc⟩ := ih o ho
    exact ⟨o₀, List.mem_cons_of_mem best h0, hc⟩

theorem market_loop_opp_sorted (sym : String) (tk : Option Nat) :
    ∀ ord opp trs, List.Sorted ole opp →
      List.Sorted ole (market_loop sym tk ord opp trs).2.1 := by
  intro ord opp trs
  induction ord, opp, trs using market_loop.induct sym tk with
  | case1 ord opp trs h =>
    rw [market_loop_zero h]
    exact id
  | case2 ord trs h =>
    rw [market_loop_nil h]
    intro
    exact List.sorted_nil
  | case3 ord trs h best rest v t ord' best' hpos ih =>
    rw [market_loop_step h]
    have hp : 0 < best.quantity - min ord.quantity best.quantity := hpos
    rw [if_pos hp]
    intro hs
    exact ih (sorted_heapPush hs.of_cons)
  | case4 ord trs h best rest v t ord' best' hpos ih =>
    rw [market_loop_step h]
    have hp : ¬ 0 < best.quantity - min ord.quantity best.quantity := hpos
    rw [if_neg hp]
    intro hs
    exact ih hs.of_cons

/-- Facts about the opposite heap after the loop's skipped orders are
pushed back: provenance, sortedness, the no-cross/same-agent dichotomy
when the incoming order has remaining quantity, and survival of the
incoming participant's resting orders. -/
theorem restored_facts (sym : String) (tk : Option Nat) (inc : Order) (opp : List Order)
    (hs : List.Sorted ole opp) (hcons : opp_consistent inc opp) :
    (∀ o ∈ (match_loop sym tk inc opp [] []).2.2.1.foldl (fun acc o => heapPush o acc)
        (match_loop sym tk inc opp [] []).2.1, ∃ o₀ ∈ opp, same_core o o₀) ∧
    List.Sorted ole ((match_loop sym tk inc opp [] []).2.2.1.foldl (fun acc o => heapPush o acc)
        (match_loop sym tk inc opp [] []).2.1) ∧
    ((match_loop sym tk inc opp [] []).1.quantity ≠ 0 →
      ∀ o ∈ (match_loop sym tk inc opp [] []).2.2.1.foldl (fun acc o => heapPush o acc)
        (match_loop sym tk inc opp [] []).2.1,
        break_cond inc o ∨ (o.agent_id = inc.agent_id ∧ o.agent_id ≠ "")) ∧
    (inc.agent_id ≠ "" → ∀ o ∈ opp, o.agent_id = inc.agent_id →
      o ∈ (match_loop sym tk inc opp [] []).2.2.1.foldl (fun acc o => heapPush o acc)
        (match_loop sym tk inc opp [] []).2.1) := by
  refine ⟨?_, ?_, ?_, ?_⟩
  · intro o ho
    rcases (mem_foldl_heapPush _ _).mp ho with hsk | hop
    · rcases match_loop_skipped sym tk inc opp [] [] o hsk with h0 | ⟨h0, _, _⟩
      · simp at h0
      · exact ⟨o, h0, same_core_refl o⟩
    · exact match_loop_opp_prov sym tk inc opp [] [] o hop
  · exact sorted_foldl_heapPush _ _ (match_loop_opp_sorted sym tk inc opp [] [] hs)
  · intro hq o ho
    rcases (mem_foldl_heapPush _ _).mp ho with hsk | hop
    · rcases match_loop_skipped sym tk inc opp [] [] o hsk with h0 | ⟨_, ha, hne⟩
      · simp at h0
      · exact Or.inr ⟨ha, hne⟩
    · exact Or.inl (match_loop_break_char sym tk inc opp [] [] hs hcons hq o hop)
  · intro hne o ho ha
    rcases match_loop_same_agent_kept sym tk inc opp [] [] hne o ho ha with h0 | h0
    · exact (mem_foldl_heapPush _ _).mpr (Or.inr h0)
    · exact (mem_foldl_heapPush _ _).mpr (Or.inl h0)

theorem match_against_fst {bk : OrderBook} {inc : Order} :
    (match_against bk inc).1 =
      (match_loop bk.symbol bk.current_tick inc
        (if inc.side = "buy" then bk.asks else bk.bids) [] []).1 := by
  by_cases h : inc.side = "buy" <;> simp [match_against, h]

theorem match_against_bids_buy (bk : OrderBook) (inc : Order) (h : inc.side = "buy") :
    (match_against bk inc).2.1.bids = bk.bids := by
  simp [match_against, h]

theorem match_against_asks_buy (bk : OrderBook) (inc : Order) (h : inc.side = "buy") :
    (match_against bk inc).2.1.asks =
      (match_loop bk.symbol bk.current_tick inc bk.asks [] []).2.2.1.foldl
        (fun acc o => heapPush o acc)
        (match_loop bk.symbol bk.current_tick inc bk.asks [] []).2.1 := by
  simp [match_against, h]

theorem match_against_asks_sell (bk : OrderBook) (inc : Order) (h : ¬ inc.side = "buy") :
    (match_against bk inc).2.1.asks = bk.asks := by
  simp [match_against, h]

theorem match_against_bids_sell (bk : OrderBook) (inc : Order) (h : ¬ inc.side = "buy") :
    (match_against bk inc).2.1.bids =
      (match_loop bk.symbol bk.current_tick inc bk.bids [] []).2.2.1.foldl
        (fun acc o => heapPush o acc)
        (match_loop bk.symbol bk.current_tick inc bk.bids [] []).2.1 := by
  simp [match_against, h]

theorem match_against_trades {bk : OrderBook} {inc : Order} :
    (match_against bk inc).2.2 =
      (match_loop bk.symbol bk.current_tick inc
        (if inc.side = "buy" then bk.asks else bk.bids) [] []).2.2.2 := by
  by_cases h : inc.side = "buy" <;> simp [match_against, h]

theorem place_limit_order_fst {bk : OrderBook} {o : Order} :
    (place_limit_order bk o).1 =
      (if 0 < (match_against bk o).1.quantity then
        add_to_book (match_against bk o).2.1 (match_against bk o).1
       else (match_against bk o).2.1) := by
  by_cases h : 0 < (match_against bk o).1.quantity <;> simp [place_limit_order, h]

theorem place_limit_order_snd {bk : OrderBook} {o : Order} :
    (place_limit_order bk o).2 = (match_against bk o).2.2 := by
  by_cases h : 0 < (match_against bk o).1.quantity <;> simp [place_limit_order, h]

theorem best_bid_mem_aux :
    ∀ (l : List Order) (acc : Option Order) (b : Order),
      l.foldl (fun acc o => match acc with
        | none => some o
        | some m => if o.price > m.price then some o else acc) acc = some b →
      acc = some b ∨ b ∈ l := by
  intro l
  induction l with
  | nil => intro acc b h; exact Or.inl h
  | cons x xs ih =>
    intro acc b h
    rw [List.foldl_cons] at h
    cases acc with
    | none =>
      have h2 : List.foldl (fun acc o => match acc with
          | none => some o
          | some m => if o.price > m.price then some o else acc) (some x) xs = some b := h
      rcases ih (some x) b h2 with h' | h'
      · have hx : x = b := by simpa using h'
        exact Or.inr (hx ▸ List.mem_cons_self x xs)
      · exact Or.inr (List.mem_cons_of_mem x h')
    | some m =>
      have h2 : List.foldl (fun acc o => match acc with
          | none => some o
          | some m => if o.price > m.price then some o else acc)
          (if x.price > m.price then some x else some m) xs = some b := h
      by_cases hcmp : x.price > m.price
      · rw [if_pos hcmp] at h2
        rcases ih (some x) b h2 with h' | h'
        · have hx : x = b := by simpa using h'
          exact Or.inr (hx ▸ List.mem_cons_self x xs)
        · exact Or.inr (List.mem_cons_of_mem x h')
      · rw [if_neg hcmp] at h2
        rcases ih (some m) b h2 with h' | h'
        · exact Or.inl h'
        · exact Or.inr (List.mem_cons_of_mem x h')

theorem best_ask_mem_aux :
    ∀ (l : List Order) (acc : Option Order) (b : Order),
      l.foldl (fun acc o => match acc with
        | none => some o
        | some m => if o.price < m.price then some o else acc) acc = some b →
      acc = some b ∨ b ∈ l := by
  intro l
  induction l with
  | nil => intro acc b h; exact Or.inl h
  | cons x xs ih =>
    intro acc b h
    rw [List.foldl_cons] at h
    cases acc with
    | none =>
      have h2 : List.foldl (fun acc o => match acc with
          | none => some o
          | some m => if o.price < m.price then some o else acc) (some x) xs = some b := h
      rcases ih (some x) b h2 with h' | h'
      · have hx : x = b := by simpa using h'
        exact Or.inr (hx ▸ List.mem_cons_self x xs)
      · exact Or.inr (List.mem_cons_of_mem x h')
    | some m =>
      have h2 : List.foldl (fun acc o => match acc with
          | none => some o
          | some m => if o.price < m.price then some o else acc)
          (if x.price < m.price then some x else some m) xs = some b := h
      by_cases hcmp : x.price < m.price
      · rw [if_pos hcmp] at h2
        rcases ih (some x) b h2 with h' | h'
        · have hx : x = b := by simpa using h'
          exact Or.inr (hx ▸ List.mem_cons_self x xs)
        · exact Or.inr (List.mem_cons_of_mem x h')
      · rw [if_neg hcmp] at h2
        rcases ih (some m) b h2 with h' | h'
        · exact Or.inl h'
        · exact Or.inr (List.mem_cons_of_mem x h')

theorem best_bid_mem {bk : OrderBook} {b : Order} (h : best_bid bk = some b) :
    b ∈ bk.bids := by
  rcases best_bid_mem_aux bk.bids none b h with h' | h'
  · exact absurd h' (by simp)
  · exact h'

theorem best_ask_mem {bk : OrderBook} {a : Order} (h : best_ask bk = some a) :
    a ∈ bk.asks := by
  rcases best_ask_mem_aux bk.asks none a h with h' | h'
  · exact absurd h' (by simp)
  · exact h'

theorem same_core_id {a b : Order} (h : same_core a b) : a.order_id = b.order_id := h.1

theorem same_core_agent {a b : Order} (h : same_core a b) : a.agent_id = b.agent_id := h.2.1

theorem same_core_side {a b : Order} (h : same_core a b) : a.side = b.side := h.2.2.1

theorem same_core_price {a b : Order} (h : same_core a b) : a.price = b.price := h.2.2.2.1

theorem add_to_book_buy {bk : OrderBook} {o : Order} (h : o.side = "buy") :
    add_to_book bk o = { bk with bids := heapPush o bk.bids } := by
  simp [add_to_book, h]

theorem add_to_book_sell {bk : OrderBook} {o : Order} (h : ¬ o.side = "buy") :
    add_to_book bk o = { bk with asks := heapPush o bk.asks } := by
  simp [add_to_book, h]

/-- Placing a limit order preserves book well-formedness and the
pairwise crossing dichotomy. -/
theorem place_limit_preserves {bk : OrderBook} {o : Order}
    (hwf : BookWF bk) (hnc : NoCross bk) :
    BookWF (place_limit_order bk o).1 ∧ NoCross (place_limit_order bk o).1 := by
  obtain ⟨hbs, has, hbsd, hasd⟩ := hwf
  have hoin : same_core (match_against bk o).1 o := by
    rw [match_against_fst]
    exact match_loop_inc_core _ _ o _ [] []
  rw [place_limit_order_fst]
  by_cases hside : o.side = "buy"
  · have hcons : opp_consistent o bk.asks := by
      unfold opp_consistent
      rw [if_pos hside]
      exact hasd
    obtain ⟨hprov, hsort, hdich, hkeep⟩ :=
      restored_facts bk.symbol bk.current_tick o bk.asks has hcons
    rw [← match_against_asks_buy bk o hside] at hprov hsort hdich
    have hBb := match_against_bids_buy bk o hside
    -- shared facts about the matched book (before any resting)
    have hwfB : BookWF (match_against bk o).2.1 := by
      refine ⟨?_, hsort, ?_, ?_⟩
      · rw [hBb]; exact hbs
      · rw [hBb]; exact hbsd
      · intro a ha
        obtain ⟨a₀, ha₀, hc⟩ := hprov a ha
        rw [same_core_side hc]
        exact hasd a₀ ha₀
    have hncB : NoCross (match_against bk o).2.1 := by
      intro b hb a ha hle
      rw [hBb] at hb
      obtain ⟨a₀, ha₀, hc⟩ := hprov a ha
      have := hnc b hb a₀ ha₀ (same_core_price hc ▸ hle)
      exact ⟨this.1.trans (same_core_agent hc).symm, this.2⟩
    by_cases hq : 0 < (match_against bk o).1.quantity
    · rw [if_pos hq]
      have hsd : (match_against bk o).1.side = "buy" := (same_core_side hoin).trans hside
      rw [add_to_book_buy hsd]
      have hq' : (match_against bk o).1.quantity ≠ 0 := Nat.pos_iff_ne_zero.mp hq
      rw [show (match_against bk o).1 =
        (match_loop bk.symbol bk.current_tick o bk.asks [] []).1 from by
          rw [match_against_fst, if_pos hside]] at hq'
      constructor
      · refine ⟨?_, hwfB.2.1, ?_, hwfB.2.2.2⟩
        · exact sorted_heapPush hwfB.1
        · intro b hb
          rcases mem_heapPush.mp hb with he | hb'
          · rw [he]; exact hsd
          · exact hwfB.2.2.1 b hb'
      · intro b hb a ha hle
        simp only at hb ha
        rcases mem_heapPush.mp hb with he | hb'
        · subst he
          rcases hdich hq' a ha with hbc | ⟨ha1, ha2⟩
          · exfalso
            rcases hbc with ⟨_, hlt⟩ | ⟨hss, _⟩
            · have : a.price ≤ o.price := by
                rw [← same_core_price hoin]
                exact hle
              exact absurd (this.trans_lt hlt) (lt_irrefl _)
            · rw [hside] at hss
              exact absurd hss (by decide)
          · refine ⟨?_, ?_⟩
            · rw [same_core_agent hoin, ← ha1]
            · rw [same_core_agent hoin, ← ha1]
              exact ha2
        · exact hncB b hb' a ha hle
    · rw [if_neg hq]
      exact ⟨hwfB, hncB⟩
  · have hcons : opp_consistent o bk.bids := by
      unfold opp_consistent
      rw [if_neg hside]
      exact hbsd
    obtain ⟨hprov, hsort, hdich, hkeep⟩ :=
      restored_facts bk.symbol bk.current_tick o bk.bids hbs hcons
    rw [← match_against_bids_sell bk o hside] at hprov hsort hdich
    have hBa := match_against_asks_sell bk o hside
    have hwfB : BookWF (match_against bk o).2.1 := by
      refine ⟨hsort, ?_, ?_, ?_⟩
      · rw [hBa]; exact has
      · intro b hb
        obtain ⟨b₀, hb₀, hc⟩ := hprov b hb
        rw [same_core_side hc]
        exact hbsd b₀ hb₀
      · rw [hBa]; exact hasd
    have hncB : NoCross (match_against bk o).2.1 := by
      intro b hb a ha hle
      rw [hBa] at ha
      obtain ⟨b₀, hb₀, hc⟩ := hprov b hb
      have := hnc b₀ hb₀ a ha (hle.trans (le_of_eq (same_core_price hc)))
      exact ⟨(same_core_agent hc).trans this.1, (same_core_agent hc) ▸ this.2⟩
    by_cases hq : 0 < (match_against bk o).1.quantity
    · rw [if_pos hq]
      have hsd : ¬ (match_against bk o).1.side = "buy" := by
        rw [same_core_side hoin]
        exact hside
      rw [add_to_book_sell hsd]
      have hq' : (match_against bk o).1.quantity ≠ 0 := Nat.pos_iff_ne_zero.mp hq
      rw [show (match_against bk o).1 =
        (match_loop bk.symbol bk.current_tick o bk.bids [] []).1 from by
          rw [match_against_fst, if_neg hside]] at hq'
      constructor
      · refine ⟨hwfB.1, ?_, hwfB.2.2.1, ?_⟩
        · exact sorted_heapPush hwfB.2.1
        · intro a ha
          rcases mem_heapPush.mp ha with he | ha'
          · rw [he]; exact hsd
          · exact hwfB.2.2.2 a ha'
      · intro b hb a ha hle
        simp only at hb ha
        rcases mem_heapPush.mp ha with he | ha'
        · subst he
          rcases hdich hq' b hb with hbc | ⟨hb1, hb2⟩
          · exfalso
            rcases hbc with ⟨hsb, _⟩ | ⟨_, hlt⟩
            · exact hside hsb
            · have : o.price ≤ b.price := by
                rw [← same_core_price hoin]
                exact hle
              exact absurd (this.trans_lt hlt) (lt_irrefl _)
          · refine ⟨?_, hb2⟩
            rw [hb1, same_core_agent hoin]
        · exact hncB b hb a ha' hle
    · rw [if_neg hq]
      exact ⟨hwfB, hncB⟩

theorem execute_market_bids_buy (bk : OrderBook) (ord : Order) (h : ord.side = "buy") :
    (execute_market_order bk ord).1.bids = bk.bids := by
  simp [execute_market_order, h]

theorem execute_market_asks_buy (bk : OrderBook) (ord : Order) (h : ord.side = "buy") :
    (execute_market_order bk ord).1.asks =
      (market_loop bk.symbol bk.current_tick ord bk.asks []).2.1 := by
  simp [execute_market_order, h]

theorem execute_market_asks_sell (bk : OrderBook) (ord : Order) (h : ¬ ord.side = "buy") :
    (execute_market_order bk ord).1.asks = bk.asks := by
  simp [execute_market_order, h]

theorem execute_market_bids_sell (bk : OrderBook) (ord : Order) (h : ¬ ord.side = "buy") :
    (execute_market_order bk ord).1.bids =
      (market_loop bk.symbol bk.current_tick ord bk.bids []).2.1 := by
  simp [execute_market_order, h]

/-- Market execution preserves well-formedness and the crossing dichotomy. -/
theorem execute_market_preserves {bk : OrderBook} {ord : Order}
    (hwf : BookWF bk) (hnc : NoCross bk) :
    BookWF (execute_market_order bk ord).1 ∧ NoCross (execute_market_order bk ord).1 := by
  obtain ⟨hbs, has, hbsd, hasd⟩ := hwf
  by_cases hside : ord.side = "buy"
  · have hb := execute_market_bids_buy bk ord hside
    have ha := execute_market_asks_buy bk ord hside
    refine ⟨⟨?_, ?_, ?_, ?_⟩, ?_⟩
    · rw [hb]; exact hbs
    · rw [ha]; exact market_loop_opp_sorted _ _ ord bk.asks [] has
    · rw [hb]; exact hbsd
    · rw [ha]
      intro a hma
      obtain ⟨a₀, ha₀, hc⟩ := market_loop_opp_prov _ _ ord bk.asks [] a hma
      rw [same_core_side hc]
      exact hasd a₀ ha₀
    · intro b hbm a ham hle
      rw [hb] at hbm
      rw [ha] at ham
      obtain ⟨a₀, ha₀, hc⟩ := market_loop_opp_prov _ _ ord bk.asks [] a ham
      have := hnc b hbm a₀ ha₀ (same_core_price hc ▸ hle)
      exact ⟨this.1.trans (same_core_agent hc).symm, this.2⟩
  · have hb := execute_market_bids_sell bk ord hside
    have ha := execute_market_asks_sell bk ord hside
    refine ⟨⟨?_, ?_, ?_, ?_⟩, ?_⟩
    · rw [hb]; exact market_loop_opp_sorted _ _ ord bk.bids [] hbs
    · rw [ha]; exact has
    · rw [hb]
      intro b hmb
      obtain ⟨b₀, hb₀, hc⟩ := market_loop_opp_prov _ _ ord bk.bids [] b hmb
      rw [same_core_side hc]
      exact hbsd b₀ hb₀
    · rw [ha]; exact hasd
    · intro b hbm a ham hle
      rw [hb] at hbm
      rw [ha] at ham
      obtain ⟨b₀, hb₀, hc⟩ := market_loop_opp_prov _ _ ord bk.bids [] b hbm
      have := hnc b₀ hb₀ a ham (hle.trans (le_of_eq (same_core_price hc)))
      exact ⟨(same_core_agent hc).trans this.1, (same_core_agent hc) ▸ this.2⟩

/-- `place_order` preserves well-formedness and the crossing dichotomy
(on success; on a raise the book is unchanged). -/
theorem place_order_preserves {bk : OrderBook} {p : ℚ} {v : Nat}
    {side kind agent : String} {ts : Nat} {bk' : OrderBook} {trs : List Trade}
    (hwf : BookWF bk) (hnc : NoCross bk)
    (h : place_order bk p v side kind agent ts = .ok (bk', trs)) :
    BookWF bk' ∧ NoCross bk' := by
  unfold place_order at h
  by_cases hk : kind = "limit"
  · rw [if_pos hk] at h
    have hpair := Except.ok.inj h
    have hbk : bk' = (place_limit_order bk
        { order_id := ts, agent_id := agent, side := side, price := p,
          quantity := v, order_type := kind, timestamp := ts }).1 :=
      (congrArg Prod.fst hpair).symm
    rw [hbk]
    exact place_limit_preserves hwf hnc
  · rw [if_neg hk] at h
    by_cases hm : kind = "market"
    · rw [if_pos hm] at h
      have hpair := Except.ok.inj h
      have hbk : bk' = (execute_market_order bk
          { order_id := ts, agent_id := agent, side := side, price := p,
            quantity := v, order_type := kind, timestamp := ts }).1 :=
        (congrArg Prod.fst hpair).symm
      rw [hbk]
      exact execute_market_preserves hwf hnc
    · rw [if_neg hm] at h
      exact absurd h (by simp)

theorem place_order_book_preserves (bk : OrderBook) (p : ℚ) (v : Nat)
    (side kind agent : String) (ts : Nat)
    (hwf : BookWF bk) (hnc : NoCross bk) :
    BookWF (place_order_book bk p v side kind agent ts) ∧
      NoCross (place_order_book bk p v side kind agent ts) := by
  unfold place_order_book
  rcases hres : place_order bk p v side kind agent ts with e | pr
  · exact ⟨hwf, hnc⟩
  · exact place_order_preserves hwf hnc (by rw [hres])

theorem run_orders_invariant (reqs : List PlaceReq) :
    ∀ (bk : OrderBook) (ts : Nat), BookWF bk → NoCross bk →
      BookWF (run_orders bk reqs ts) ∧ NoCross (run_orders bk reqs ts) := by
  induction reqs with
  | nil => intro bk ts hwf hnc; exact ⟨hwf, hnc⟩
  | cons r rs ih =>
    intro bk ts hwf hnc
    rw [run_orders]
    obtain ⟨hwf', hnc'⟩ := place_order_book_preserves bk r.price r.volume r.side
      r.order_type r.agent_id ts hwf hnc
    exact ih _ (ts + 1) hwf' hnc'

theorem emptyBook_wf (sym : String) : BookWF (emptyBook sym) := by
  refine ⟨List.sorted_nil, List.sorted_nil, ?_, ?_⟩ <;> intro o ho <;> simp [emptyBook] at ho

theorem emptyBook_nocross (sym : String) : NoCross (emptyBook sym) := by
  intro b hb
  simp [emptyBook] at hb

theorem alGet_alSet_self {α : Type} (l : List (String × α)) (k : String) (v : α) :
    alGet (alSet l k v) k = some v := by
  induction l with
  | nil => simp [alGet, alSet]
  | cons p rest ih =>
    obtain ⟨k', v'⟩ := p
    by_cases h : k' = k
    · simp [alGet, alSet, h]
    · simp only [alSet, if_neg h]
      rw [alGet, if_neg h]
      exact ih

theorem alGet_alSet_ne {α : Type} (l : List (String × α)) {k k' : String} (v : α)
    (h : k' ≠ k) : alGet (alSet l k v) k' = alGet l k' := by
  have hkk : ¬ k = k' := fun e => h (Eq.symm e)
  induction l with
  | nil => simp [alGet, alSet, hkk]
  | cons p rest ih =>
    obtain ⟨k0, v0⟩ := p
    by_cases h0 : k0 = k
    · subst h0
      simp [alGet, alSet, hkk]
    · simp only [alSet, if_neg h0]
      rw [alGet, alGet]
      by_cases h1 : k0 = k'
      · rw [if_pos h1, if_pos h1]
      · rw [if_neg h1, if_neg h1]
        exact ih

theorem update_accounts_fields (env : Environment) (t : Trade) :
    (update_accounts env t).time = env.time ∧
    (update_accounts env t).pending_orders = env.pending_orders ∧
    (update_accounts env t).instruments = env.instruments ∧
    (update_accounts env t).next_ts = env.next_ts ∧
    (update_accounts env t).trade_log = env.trade_log := by
  unfold update_accounts add_account
  dsimp only
  split <;> split <;> exact ⟨rfl, rfl, rfl, rfl, rfl⟩

theorem foldl_update_accounts_fields (trs : List Trade) :
    ∀ env : Environment,
      (trs.foldl update_accounts env).time = env.time ∧
      (trs.foldl update_accounts env).pending_orders = env.pending_orders ∧
      (trs.foldl update_accounts env).instruments = env.instruments ∧
      (trs.foldl update_accounts env).next_ts = env.next_ts := by
  induction trs with
  | nil => intro env; exact ⟨rfl, rfl, rfl, rfl⟩
  | cons t ts ih =>
    intro env
    rw [List.foldl_cons]
    obtain ⟨h1, h2, h3, _, h5⟩ := update_accounts_fields env t
    obtain ⟨g1, g2, g3, g4⟩ := ih (update_accounts env t)
    have h4 := (update_accounts_fields env t).2.2.2.1
    exact ⟨g1.trans h1, g2.trans h2, g3.trans h3, g4.trans h4⟩

/-- Processing the pending list preserves the tick counter and the
pending queue, and stamps every collected trade with the current
counter value. -/
theorem process_go_ok :
    ∀ (reqs : List OrderReq) (env : Environment) (acc : List Trade)
      (env' : Environment) (out : List Trade),
      process_go env reqs acc = .ok (env', out) →
        env'.time = env.time ∧ env'.pending_orders = env.pending_orders ∧
          (∀ t ∈ out, t ∈ acc ∨ t.time = some env.time) := by
  intro reqs
  induction reqs with
  | nil =>
    intro env acc env' out h
    rw [process_go] at h
    obtain ⟨h1, h2⟩ := Prod.mk.inj (Except.ok.inj h)
    subst h1
    subst h2
    exact ⟨rfl, rfl, fun t ht => Or.inl ht⟩
  | cons r rs ih =>
    intro env acc env' out h
    rw [process_go] at h
    rcases hinst : alGet env.instruments r.symbol with _ | inst
    · rw [hinst] at h
      simp at h
    · rw [hinst] at h
      dsimp only at h
      rcases hp : place_order inst.order_book r.price r.volume r.side r.order_type
        r.agent_id env.next_ts with e | pr
      · rw [hp] at h
        simp at h
      · obtain ⟨bk', trades⟩ := pr
        rw [hp] at h
        dsimp only at h
        obtain ⟨henv', hpend, htr⟩ := ih _ _ _ _ h
        have hmid := foldl_update_accounts_fields
          (trades.map (fun t => { t with time := some env.time }))
          { env with
            instruments := alSet env.instruments r.symbol { inst with order_book := bk' }
            next_ts := env.next_ts + 1 }
        refine ⟨henv'.trans hmid.1, hpend.trans hmid.2.1, ?_⟩
        intro t ht
        rcases htr t ht with hin | hstamp
        · rcases List.mem_append.mp hin with hin' | hin'
          · exact Or.inl hin'
          · obtain ⟨t0, _, ht0⟩ := List.mem_map.mp hin'
            exact Or.inr (by rw [← ht0])
        · rw [hmid.1] at hstamp
          exact Or.inr hstamp

theorem process_orders_ok {env env' : Environment} {out : List Trade}
    (h : process_orders env = .ok (env', out)) :
    env'.time = env.time ∧ env'.pending_orders = [] ∧
      ∀ t ∈ out, t.time = some env.time := by
  unfold process_orders at h
  rcases hg : process_go env env.pending_orders [] with e | pr
  · rw [hg] at h
    simp at h
  · obtain ⟨env2, out2⟩ := pr
    rw [hg] at h
    dsimp only at h
    obtain ⟨h1, h2⟩ := Prod.mk.inj (Except.ok.inj h)
    obtain ⟨g1, g2, g3⟩ := process_go_ok env.pending_orders env [] env2 out2 hg
    subst h2
    refine ⟨?_, ?_, ?_⟩
    · rw [← h1]
      exact g1
    · rw [← h1]
    · intro t ht
      rcases g3 t ht with h0 | h0
      · simp at h0
      · exact h0

theorem update_prices_time (env : Environment) :
    (update_prices env).time = env.time := rfl

/-- `tick` advances the counter before processing: every trade of a
successful tick is stamped with the new value, and the counter ends one
higher than before the call. -/
theorem tick_ok {env env' : Environment} {trs : List Trade}
    (h : tick env = .ok (env', trs)) :
    env'.time = env.time + 1 ∧ ∀ t ∈ trs, t.time = some (env.time + 1) := by
  unfold tick at h
  dsimp only at h
  rcases hp : process_orders { env with time := env.time + 1 } with e | pr
  · rw [hp] at h
    simp at h
  · obtain ⟨env2, out2⟩ := pr
    rw [hp] at h
    dsimp only at h
    obtain ⟨h1, h2⟩ := Prod.mk.inj (Except.ok.inj h)
    obtain ⟨g1, _, g3⟩ := process_orders_ok hp
    subst h2
    constructor
    · rw [← h1, update_prices_time]
      exact g1
    · exact g3

/-- C9: `place_order` raises the invalid-order-kind error exactly when
the kind is neither limit nor market, and in that case the caller-visible
book state (both heaps and the trade buffer) is exactly as before. -/
theorem C9_invalid_kind (bk : OrderBook) (p : ℚ) (v : Nat) (side kind agent : String) (ts : Nat) :
    ((∃ e, place_order bk p v side kind agent ts = .error e) ↔
      (kind ≠ "limit" ∧ kind ≠ "market")) ∧
    (kind ≠ "limit" → kind ≠ "market" →
      place_order_book bk p v side kind agent ts = bk ∧
        place_order bk p v side kind agent ts = .error ("Unknown order type: " ++ kind)) := by
  constructor
  · constructor
    · rintro ⟨e, he⟩
      unfold place_order at he
      by_cases hk : kind = "limit"
      · rw [if_pos hk] at he
        simp at he
      · rw [if_neg hk] at he
        by_cases hm : kind = "market"
        · rw [if_pos hm] at he
          simp at he
        · exact ⟨hk, hm⟩
    · rintro ⟨hk, hm⟩
      refine ⟨"Unknown order type: " ++ kind, ?_⟩
      unfold place_order
      rw [if_neg hk, if_neg hm]
  · intro hk hm
    constructor
    · unfold place_order_book place_order
      rw [if_neg hk, if_neg hm]
    · unfold place_order
      rw [if_neg hk, if_neg hm]

/-- C9 witness: a concrete invalid kind is rejected with the book unchanged. -/
theorem C9_invalid_kind_witness :
    place_order_book (emptyBook "S") 1 1 "buy" "stop" "A" 0 = emptyBook "S" ∧
      place_order (emptyBook "S") 1 1 "buy" "stop" "A" 0 =
        .error ("Unknown order type: " ++ "stop") :=
  (C9_invalid_kind (emptyBook "S") 1 1 "buy" "stop" "A" 0).2 (by decide) (by decide)

/-- A tick whose first pending request names an unknown symbol raises a
lookup error (after the counter has already been advanced). -/
theorem tick_unknown_symbol {env : Environment} {r : OrderReq}
    (hnone : alGet env.instruments r.symbol = none)
    (hpend : env.pending_orders = [r]) :
    tick env = .error ("KeyError: " ++ r.symbol) := by
  unfold tick
  dsimp only
  have hgo : process_orders { env with time := env.time + 1 } =
      .error ("KeyError: " ++ r.symbol) := by
    unfold process_orders
    have hpd : ({ env with time := env.time + 1 } : Environment).pending_orders = [r] := hpend
    rw [hpd, process_go]
    have hin : alGet ({ env with time := env.time + 1 } : Environment).instruments r.symbol = none := hnone
    rw [hin]
  rw [hgo]

/-- C3 (amended): `submit_order` performs no validation at all — every
request, even one naming an unknown instrument symbol, is appended to
the pending queue and acknowledged as queued by the server; the unknown
symbol then makes the next `tick` raise a lookup error instead. -/
theorem C3_submit_no_validation (env : Environment) (r : OrderReq) :
    (submit_order env r).pending_orders = env.pending_orders ++ [r] ∧
    (process_place_order env r).2 = "queued" ∧
    (alGet env.instruments r.symbol = none → env.pending_orders = [] →
      tick (submit_order env r) = .error ("KeyError: " ++ r.symbol)) := by
  refine ⟨rfl, rfl, ?_⟩
  intro hnone hpend
  refine @tick_unknown_symbol (submit_order env r) r hnone ?_
  show env.pending_orders ++ [r] = [r]
  rw [hpend]
  rfl

/-- C3 counterexample: the request naming unknown symbol Y is queued and
acknowledged rather than rejected, contradicting the claimed validation. -/
theorem C3_submit_no_validation_cex :
    (submit_order envX reqY).pending_orders = [reqY] ∧
    (process_place_order envX reqY).2 = "queued" ∧
    alGet envX.instruments "Y" = none := by
  refine ⟨rfl, rfl, ?_⟩
  decide

/-- C3 witness: on the concrete environment the queued unknown-symbol
request makes the next tick raise the lookup error. -/
theorem C3_submit_no_validation_witness :
    tick (submit_order envX reqY) = .error ("KeyError: " ++ "Y") :=
  (C3_submit_no_validation envX reqY).2.2 (by decide) rfl

/-- C8 (amended): neither a state query nor a submission creates an
account. `get_state` with an unseen (truthy) participant id raises
`KeyError` instead of returning a fresh account; `submit_order` leaves
the account table untouched; accounts are created, with the fixed
1,000,000 starting cash, by `add_account` — invoked lazily only at
settlement time, which guarantees both sides of a settled trade have
accounts afterwards. -/
theorem C8_lazy_accounts :
    (∀ (env : Environment) (a : String), a ≠ "" → alGet env.agent_accounts a = none →
      get_state env (some a) = .error ("KeyError: " ++ a)) ∧
    (∀ (env : Environment) (r : OrderReq),
      (submit_order env r).agent_accounts = env.agent_accounts) ∧
    (∀ (env : Environment) (a : String),
      alGet (add_account env a).agent_accounts a = some ⟨1000000, []⟩) ∧
    (∀ (env : Environment) (t : Trade),
      (alGet (update_accounts env t).agent_accounts t.buyer).isSome ∧
        (alGet (update_accounts env t).agent_accounts t.seller).isSome) := by
  refine ⟨?_, fun env r => rfl, ?_, ?_⟩
  · intro env a ha hnone
    unfold get_state
    dsimp only
    rw [if_neg ha, hnone]
  · intro env a
    exact alGet_alSet_self env.agent_accounts a ⟨1000000, []⟩
  · intro env t
    unfold update_accounts
    dsimp only
    constructor
    · by_cases hbs : t.seller = t.buyer
      · rw [hbs, alGet_alSet_self]
        rfl
      · rw [alGet_alSet_ne _ _ (fun e => hbs e.symm), alGet_alSet_self]
        rfl
    · rw [alGet_alSet_self]
      rfl

/-- C8 counterexample: on a fresh environment a state query for the
unseen participant A fails with `KeyError` instead of succeeding with a
fresh account. -/
theorem C8_lazy_accounts_cex :
    get_state envX (some "A") = .error ("KeyError: " ++ "A") := by
  rfl

/-- C8 witness: the amended claim applied to concrete inputs. -/
theorem C8_lazy_accounts_witness :
    get_state envX (some "Q") = .error ("KeyError: " ++ "Q") ∧
      alGet (add_account envX "Q").agent_accounts "Q" = some ⟨1000000, []⟩ :=
  ⟨C8_lazy_accounts.1 envX "Q" (by decide) (by decide),
    C8_lazy_accounts.2.2.1 envX "Q"⟩

/-- C7 (amended): `tick` advances the counter FIRST: when the counter is
t at the call, every trade of that tick is stamped t+1 (not t), and the
counter ends at t+1. -/
theorem C7_tick_stamps {env env' : Environment} {trs : List Trade}
    (h : tick env = .ok (env', trs)) :
    env'.time = env.time + 1 ∧ ∀ t ∈ trs, t.time = some (env.time + 1) :=
  tick_ok h

/-- C7 witness: ticking the empty environment. -/
theorem C7_tick_stamps_witness :
    (Environment.mk [] 1 [] [] [] 0).time = (mkEnvironment []).time + 1 :=
  (@C7_tick_stamps (mkEnvironment []) (Environment.mk [] 1 [] [] [] 0) [] (by rfl)).1

/-- C7 counterexample: with the counter at 0, the trade produced by the
first tick is stamped 1, not 0 as the claim requires. -/
theorem C7_tick_stamps_cex :
    envX2.time = 0 ∧
    (tick envX2).toOption.map (fun pr => pr.2.map Trade.time) = some [some 1] ∧
    some (1 : Nat) ≠ some (0 : Nat) := by
  refine ⟨rfl, ?_, by decide⟩
  simp +decide [tick, envX2, envX, mkEnvironment, mkInstrument, submit_order, process_orders,
    process_go, alGet, alSet, place_order, place_limit_order, match_against, match_loop,
    match_trade, add_to_book, heapPush, List.orderedInsert, emptyBook, update_accounts,
    add_account, portGet, update_prices, ole, sortKey, List.filter, List.getLast?]

/-- C6 (amended): for a trade between DISTINCT participants, settlement
debits the buyer exactly price times volume in cash and credits exactly
volume in holdings, and symmetrically credits the seller; a missing
account is created with the fixed 1,000,000 starting balance first, and
nothing blocks the update (cash may go negative). When buyer = seller
the two updates hit the same account and cancel (see the counterexample). -/
theorem C6_settlement_distinct {env : Environment} {t : Trade} (hne : t.buyer ≠ t.seller) :
    alGet (update_accounts env t).agent_accounts t.buyer =
      some { cash := ((alGet env.agent_accounts t.buyer).getD ⟨1000000, []⟩).cash -
               t.price * (t.volume : ℚ)
             portfolio := alSet ((alGet env.agent_accounts t.buyer).getD ⟨1000000, []⟩).portfolio
               t.symbol
               (portGet ((alGet env.agent_accounts t.buyer).getD ⟨1000000, []⟩).portfolio t.symbol +
                 (t.volume : Int)) } ∧
    alGet (update_accounts env t).agent_accounts t.seller =
      some { cash := ((alGet env.agent_accounts t.seller).getD ⟨1000000, []⟩).cash +
               t.price * (t.volume : ℚ)
             portfolio := alSet ((alGet env.agent_accounts t.seller).getD ⟨1000000, []⟩).portfolio
               t.symbol
               (portGet ((alGet env.agent_accounts t.seller).getD ⟨1000000, []⟩).portfolio t.symbol -
                 (t.volume : Int)) } := by
  have hsb : t.seller ≠ t.buyer := fun e => hne e.symm
  have hgetbs : ∀ (l : List (String × Account)) (v : Account),
      alGet (alSet l t.seller v) t.buyer = alGet l t.buyer := fun l v => alGet_alSet_ne l v hne
  have hgetsb : ∀ (l : List (String × Account)) (v : Account),
      alGet (alSet l t.buyer v) t.seller = alGet l t.seller := fun l v => alGet_alSet_ne l v hsb
  unfold update_accounts add_account
  dsimp only
  rcases hB : alGet env.agent_accounts t.buyer with _ | b0 <;>
    rcases hS : alGet env.agent_accounts t.seller with _ | s0 <;>
      simp [hB, hS, hgetbs, hgetsb, alGet_alSet_self]

/-- C6 counterexample: settling a self-trade (buyer = seller) leaves
that account's cash and holdings unchanged, so the buyer's cash does not
decrease by price times volume as the claim requires for every trade. -/
theorem C6_settlement_distinct_cex :
    alGet (update_accounts envX selfTrade).agent_accounts "A" = some ⟨1000000, [("X", 0)]⟩ ∧
      (1000000 : ℚ) ≠ 1000000 - selfTrade.price * (selfTrade.volume : ℚ) := by
  refine ⟨?_, ?_⟩
  · simp +decide [update_accounts, add_account, envX, selfTrade, mkEnvironment, mkInstrument,
      alGet, alSet, portGet, emptyBook]
  · norm_num [selfTrade]

/-- C6 witness: settling an A-to-B trade on the fresh environment. -/
theorem C6_settlement_distinct_witness :
    alGet (update_accounts envX tradeAB).agent_accounts "A" =
      some ⟨1000000 - 100 * 5, alSet [] "X" (0 + 5)⟩ ∧
    alGet (update_accounts envX tradeAB).agent_accounts "B" =
      some ⟨1000000 + 100 * 5, alSet [] "X" (0 - 5)⟩ :=
  C6_settlement_distinct (by decide)

/-- C1 (amended): after any sequence of `place_order` calls on an empty
book, whenever both sides are non-empty and the best bid's price is at
or above the best ask's price, the two crossing orders belong to the
same participant with a nonempty id — self-trade skipping is the only
way a crossed book survives, and it never crosses distinct participants. -/
theorem C1_crossing_same_participant (sym : String) (reqs : List PlaceReq) (ts : Nat)
    {b a : Order}
    (hb : best_bid (run_orders (emptyBook sym) reqs ts) = some b)
    (ha : best_ask (run_orders (emptyBook sym) reqs ts) = some a)
    (hcross : a.price ≤ b.price) :
    b.agent_id = a.agent_id ∧ b.agent_id ≠ "" := by
  obtain ⟨hwf, hnc⟩ := run_orders_invariant reqs (emptyBook sym) ts
    (emptyBook_wf sym) (emptyBook_nocross sym)
  exact hnc b (best_bid_mem hb) a (best_ask_mem ha) hcross

/-- C1 counterexample: a resting sell A at 100 and a later buy A at 105
both rest (the self-trade skip prevents matching), leaving a crossed
book: both sides non-empty with best bid 105 at or above best ask 100. -/
theorem C1_crossing_same_participant_cex :
    selfCrossBook.bids ≠ [] ∧ selfCrossBook.asks ≠ [] ∧
      (best_bid selfCrossBook).map Order.price = some 105 ∧
      (best_ask selfCrossBook).map Order.price = some 100 ∧ (100 : ℚ) ≤ 105 := by
  refine ⟨?_, ?_, ?_, ?_, by norm_num⟩ <;>
    simp +decide [selfCrossBook, run_orders, place_order_book, place_order, place_limit_order,
      match_against, match_loop, match_trade, add_to_book, heapPush, List.orderedInsert,
      emptyBook, best_bid, best_ask, ole, sortKey]

/-- C1 witness: the amended claim applied to the concrete crossed book. -/
theorem C1_crossing_same_participant_witness :
    (Order.mk 1 "A" "buy" 105 5 "limit" 1).agent_id =
        (Order.mk 0 "A" "sell" 100 5 "limit" 0).agent_id ∧
      (Order.mk 1 "A" "buy" 105 5 "limit" 1).agent_id ≠ "" :=
  C1_crossing_same_participant "S"
    [⟨100, 5, "sell", "limit", "A"⟩, ⟨105, 5, "buy", "limit", "A"⟩] 0
    (by simp +decide [run_orders, place_order_book, place_order, place_limit_order,
      match_against, match_loop, match_trade, add_to_book, heapPush, List.orderedInsert,
      emptyBook, best_bid, ole, sortKey])
    (by simp +decide [run_orders, place_order_book, place_order, place_limit_order,
      match_against, match_loop, match_trade, add_to_book, heapPush, List.orderedInsert,
      emptyBook, best_ask, ole, sortKey])
    (by norm_num)

/-- C2 (amended): for LIMIT orders whose participant id is nonempty,
no produced trade is a self-trade; every resting order of the same
participant on the opposite side survives the call completely unchanged,
and the opposite side stays sorted by the immutable priority key, so
each skipped order's relative priority position is unchanged. (Market
orders perform no self-trade check — see the counterexample — and an
empty participant id disables the check.) -/
theorem C2_no_self_trade_limit {bk : OrderBook} {p : ℚ} {v : Nat} {side agent : String}
    {ts : Nat} {bk' : OrderBook} {trs : List Trade}
    (hwf : BookWF bk) (hagent : agent ≠ "")
    (h : place_order bk p v side "limit" agent ts = .ok (bk', trs)) :
    (∀ t ∈ trs, t.buyer ≠ t.seller) ∧
    (∀ o ∈ opp_side bk side, o.agent_id = agent → o ∈ opp_side bk' side) ∧
    List.Sorted ole (opp_side bk' side) := by
  obtain ⟨hbs, has, hbsd, hasd⟩ := hwf
  unfold place_order at h
  rw [if_pos rfl] at h
  have hpair : place_limit_order bk
      { order_id := ts, agent_id := agent, side := side, price := p,
        quantity := v, order_type := "limit", timestamp := ts } = (bk', trs) :=
    Except.ok.inj h
  have hbk : bk' = (place_limit_order bk
      { order_id := ts, agent_id := agent, side := side, price := p,
        quantity := v, order_type := "limit", timestamp := ts }).1 :=
    (congrArg Prod.fst hpair).symm
  have htrs : trs = (place_limit_order bk
      { order_id := ts, agent_id := agent, side := side, price := p,
        quantity := v, order_type := "limit", timestamp := ts }).2 :=
    (congrArg Prod.snd hpair).symm
  refine ⟨?_, ?_⟩
  · intro t ht
    rw [htrs, place_limit_order_snd, match_against_trades] at ht
    rcases match_loop_trades _ _ _ _ [] [] t ht with h0 | ⟨_, hne⟩
    · simp at h0
    · exact hne hagent
  · have hoin : same_core (match_against bk
        { order_id := ts, agent_id := agent, side := side, price := p,
          quantity := v, order_type := "limit", timestamp := ts }).1
        { order_id := ts, agent_id := agent, side := side, price := p,
          quantity := v, order_type := "limit", timestamp := ts } := by
      rw [match_against_fst]
      exact match_loop_inc_core _ _ _ _ [] []
    by_cases hside : side = "buy"
    · have hcons : opp_consistent
          { order_id := ts, agent_id := agent, side := side, price := p,
            quantity := v, order_type := "limit", timestamp := ts } bk.asks := by
        unfold opp_consistent
        rw [if_pos hside]
        exact hasd
      obtain ⟨_, hsort, _, hkeep⟩ := restored_facts bk.symbol bk.current_tick
        { order_id := ts, agent_id := agent, side := side, price := p,
          quantity := v, order_type := "limit", timestamp := ts } bk.asks has hcons
      rw [← match_against_asks_buy bk
        { order_id := ts, agent_id := agent, side := side, price := p,
          quantity := v, order_type := "limit", timestamp := ts } hside] at hsort hkeep
      have hasks : (opp_side bk' side) = (match_against bk
          { order_id := ts, agent_id := agent, side := side, price := p,
            quantity := v, order_type := "limit", timestamp := ts }).2.1.asks := by
        rw [hbk, place_limit_order_fst]
        unfold opp_side
        rw [if_pos hside]
        by_cases hq : 0 < (match_against bk
            { order_id := ts, agent_id := agent, side := side, price := p,
              quantity := v, order_type := "limit", timestamp := ts }).1.quantity
        · rw [if_pos hq, add_to_book_buy ((same_core_side hoin).trans hside)]
        · rw [if_neg hq]
      constructor
      · intro o ho ha
        rw [hasks]
        unfold opp_side at ho
        rw [if_pos hside] at ho
        exact hkeep hagent o ho ha
      · rw [hasks]
        exact hsort
    · have hcons : opp_consistent
          { order_id := ts, agent_id := agent, side := side, price := p,
            quantity := v, order_type := "limit", timestamp := ts } bk.bids := by
        unfold opp_consistent
        rw [if_neg hside]
        exact hbsd
      obtain ⟨_, hsort, _, hkeep⟩ := restored_facts bk.symbol bk.current_tick
        { order_id := ts, agent_id := agent, side := side, price := p,
          quantity := v, order_type := "limit", timestamp := ts } bk.bids hbs hcons
      rw [← match_against_bids_sell bk
        { order_id := ts, agent_id := agent, side := side, price := p,
          quantity := v, order_type := "limit", timestamp := ts } hside] at hsort hkeep
      have hbids : (opp_side bk' side) = (match_against bk
          { order_id := ts, agent_id := agent, side := side, price := p,
            quantity := v, order_type := "limit", timestamp := ts }).2.1.bids := by
        rw [hbk, place_limit_order_fst]
        unfold opp_side
        rw [if_neg hside]
        by_cases hq : 0 < (match_against bk
            { order_id := ts, agent_id := agent, side := side, price := p,
              quantity := v, order_type := "limit", timestamp := ts }).1.quantity
        · rw [if_pos hq, add_to_book_sell (fun e => hside ((same_core_side hoin).symm.trans e))]
        · rw [if_neg hq]
      constructor
      · intro o ho ha
        rw [hbids]
        unfold opp_side at ho
        rw [if_neg hside] at ho
        exact hkeep hagent o ho ha
      · rw [hbids]
        exact hsort

/-- C2 counterexample: a MARKET buy from A placed via `place_order`
matches A's own resting sell — the trade's buyer and seller are both A. -/
theorem C2_no_self_trade_limit_cex :
    (place_order restSellBook 0 5 "buy" "market" "A" 1).toOption.map
        (fun pr => pr.2.map (fun t => (t.buyer, t.seller))) = some [("A", "A")] := by
  simp +decide [restSellBook, run_orders, place_order_book, place_order, place_limit_order,
    execute_market_order, market_loop, market_trade, match_against, match_loop, match_trade,
    add_to_book, heapPush, List.orderedInsert, emptyBook, ole, sortKey]

theorem bkW_wf : BookWF bkW := by
  refine ⟨List.sorted_nil, List.sorted_singleton _, ?_, ?_⟩
  · intro o ho
    simp [bkW] at ho
  · intro o ho
    have he : o = ⟨0, "B", "sell", 100, 7, "limit", 0⟩ := by simpa [bkW] using ho
    rw [he]
    decide

/-- C2 witness: a limit buy from A against B's resting sell produces a
trade between distinct participants. -/
theorem C2_no_self_trade_limit_witness : ("A" : String) ≠ "B" :=
  (@C2_no_self_trade_limit bkW 101 5 "buy" "A" 1
      ⟨"S", [], [⟨0, "B", "sell", 100, 2, "limit", 0⟩], [⟨101, 5, "S", "A", "B", 1, 0, none⟩], none⟩
      [⟨101, 5, "S", "A", "B", 1, 0, none⟩]
      bkW_wf (by decide)
      (by simp +decide [bkW, place_order, place_limit_order, match_against, match_loop,
        match_trade, add_to_book, heapPush, List.orderedInsert, ole, sortKey])).1
    ⟨101, 5, "S", "A", "B", 1, 0, none⟩ (List.mem_singleton_self _)

/-- C5: every trade a limit placement produces is priced at the INCOMING
order's price (never the resting order's), and — step characterization
of the loop — the trade emitted by a match step has volume exactly
min(incoming remaining, resting remaining) at that moment. -/
theorem C5_limit_price_volume :
    (∀ (bk : OrderBook) (p : ℚ) (v : Nat) (side agent : String) (ts : Nat)
        (bk' : OrderBook) (trs : List Trade),
      place_order bk p v side "limit" agent ts = .ok (bk', trs) →
        ∀ t ∈ trs, t.price = p) ∧
    (∀ (sym : String) (tk : Option Nat) (inc best : Order) (rest sk : List Order)
        (trs : List Trade),
      inc.quantity ≠ 0 →
      ¬(inc.agent_id ≠ "" ∧ best.agent_id ≠ "" ∧ best.agent_id = inc.agent_id) →
      ¬ break_cond inc best →
        ((match_loop sym tk inc (best :: rest) sk trs).2.2.2)[trs.length]? =
            some (match_trade sym tk inc best) ∧
          (match_trade sym tk inc best).volume = min inc.quantity best.quantity ∧
          (match_trade sym tk inc best).price = inc.price) := by
  constructor
  · intro bk p v side agent ts bk' trs h t ht
    unfold place_order at h
    rw [if_pos rfl] at h
    have htrs : trs = (place_limit_order bk
        { order_id := ts, agent_id := agent, side := side, price := p,
          quantity := v, order_type := "limit", timestamp := ts }).2 :=
      (congrArg Prod.snd (Except.ok.inj h)).symm
    rw [htrs, place_limit_order_snd, match_against_trades] at ht
    rcases match_loop_trades _ _ _ _ [] [] t ht with h0 | ⟨hp, _⟩
    · simp at h0
    · exact hp
  · intro sym tk inc best rest sk trs hq hskip hbreak
    refine ⟨?_, rfl, rfl⟩
    rw [match_loop_step hq hskip hbreak]
    obtain ⟨new, hnew⟩ := match_loop_trades_ext sym tk
      { inc with quantity := inc.quantity - min inc.quantity best.quantity }
      (if 0 < best.quantity - min inc.quantity best.quantity then
        heapPush { best with quantity := best.quantity - min inc.quantity best.quantity } rest
       else rest)
      sk (trs ++ [match_trade sym tk inc best])
    rw [hnew, List.append_assoc, List.getElem?_append_right (le_refl _)]
    simp

/-- C5 witness: A's limit buy of 5 at 101 against B's resting sell of 7
at 100 trades at the incoming price 101 with volume min 5 7 = 5. -/
theorem C5_limit_price_volume_witness :
    ((101 : ℚ) = 101) ∧
      ((match_loop "S" none (Order.mk 1 "A" "buy" 101 5 "limit" 1)
            [Order.mk 0 "B" "sell" 100 7 "limit" 0] [] []).2.2.2)[(0 : Nat)]? =
          some (match_trade "S" none (Order.mk 1 "A" "buy" 101 5 "limit" 1)
            (Order.mk 0 "B" "sell" 100 7 "limit" 0)) ∧
      (match_trade "S" none (Order.mk 1 "A" "buy" 101 5 "limit" 1)
          (Order.mk 0 "B" "sell" 100 7 "limit" 0)).volume = min 5 7 := by
  have h1 := C5_limit_price_volume.1 bkW 101 5 "buy" "A" 1
    ⟨"S", [], [⟨0, "B", "sell", 100, 2, "limit", 0⟩], [⟨101, 5, "S", "A", "B", 1, 0, none⟩], none⟩
    [⟨101, 5, "S", "A", "B", 1, 0, none⟩]
    (by simp +decide [bkW, place_order, place_limit_order, match_against, match_loop,
      match_trade, add_to_book, heapPush, List.orderedInsert, ole, sortKey])
    ⟨101, 5, "S", "A", "B", 1, 0, none⟩ (List.mem_singleton_self _)
  have h2 := C5_limit_price_volume.2 "S" none
    (Order.mk 1 "A" "buy" 101 5 "limit" 1) (Order.mk 0 "B" "sell" 100 7 "limit" 0)
    [] [] [] (by decide) (by decide) (by unfold break_cond; decide)
  exact ⟨h1, h2.1, h2.2.1⟩

/-- C4 counterexample: in the §8 end-to-end example the single trade is
priced 100 — the price of the order processed second, the incoming sell
at 100 — not 101 as the claim asserts. -/
theorem C4_end_to_end_cex :
    (tick envX2).toOption.map (fun pr => pr.2.map Trade.price) = some [100] ∧
      (100 : ℚ) ≠ 101 := by
  constructor
  · simp +decide [tick, envX2, envX, mkEnvironment, mkInstrument, submit_order, process_orders,
      process_go, alGet, alSet, place_order, place_limit_order, match_against, match_loop,
      match_trade, add_to_book, heapPush, List.orderedInsert, emptyBook, update_accounts,
      add_account, portGet, update_prices, ole, sortKey, List.filter, List.getLast?]
  · norm_num

/-- C4 (amended): the end-to-end example produces exactly one trade with
price 100 (the incoming/aggressor convention prices the trade at the
order processed second, the sell at 100), volume 5, buyer A, seller B;
afterwards A holds +5 of X with cash 1,000,000 − 5 × 100 = 999,500 and B
holds −5 with cash 1,000,000 + 5 × 100 = 1,000,500. -/
theorem C4_end_to_end :
    (match tick envX2 with
     | .ok (e, trs) => some (trs.map (fun t => (t.price, t.volume, t.buyer, t.seller)),
         alGet e.agent_accounts "A", alGet e.agent_accounts "B")
     | .error _ => none) =
      some ([((100 : ℚ), 5, "A", "B")],
        some (⟨999500, [("X", 5)]⟩ : Account),
        some (⟨1000500, [("X", -5)]⟩ : Account)) := by
  simp +decide [tick, envX2, envX, mkEnvironment, mkInstrument, submit_order, process_orders,
    process_go, alGet, alSet, place_order, place_limit_order, match_against, match_loop,
    match_trade, add_to_book, heapPush, List.orderedInsert, emptyBook, update_accounts,
    add_account, portGet, update_prices, ole, sortKey, List.filter, List.getLast?]
  norm_num

/-- C10: `reset` leaves the pending queue and every instrument's last
price untouched; orders submitted before a reset are still matched by
the first tick after it (concretely, the pre-reset end-to-end pair still
produces its single trade). -/
theorem C10_reset_frame :
    (∀ env : Environment, (reset env).pending_orders = env.pending_orders) ∧
    (∀ env : Environment, (reset env).instruments.map (fun p => (p.1, p.2.price)) =
      env.instruments.map (fun p => (p.1, p.2.price))) ∧
    ((match tick (reset envX2) with
      | .ok (_, trs) => trs.map (fun t => (t.price, t.volume, t.buyer, t.seller))
      | .error _ => []) = [((100 : ℚ), 5, "A", "B")]) := by
  refine ⟨fun env => rfl, fun env => ?_, ?_⟩
  · unfold reset
    dsimp only
    rw [List.map_map]
    rfl
  · simp +decide [reset, tick, envX2, envX, mkEnvironment, mkInstrument, submit_order,
      process_orders, process_go, alGet, alSet, place_order, place_limit_order, match_against,
      match_loop, match_trade, add_to_book, heapPush, List.orderedInsert, emptyBook,
      update_accounts, add_account, portGet, update_prices, ole, sortKey, List.filter,
      List.getLast?]

end MarketSim
